import Mathlib

/-!
Shallow embedding of the configuration store in `coredb/coredb.py` (class
`CoreDB`).  The XML document tree is modelled by the inductive `Element`
(tag, ordered attribute list, ordered children, optional text), Python
strings по `String`, Python `float` values by `Rat` restricted to finite
decimal literals (the store only ever compares parsed values against
schema bounds, so the embedding models `float()` on the decimal-literal
fragment; `inf`/`nan`/underscore separators are out of scope and treated
as unparseable), and the mutable singleton state by the structure `DB`
threaded explicitly.

Resources bundled with the application (`baram.cfg.xsd`, `materials.csv`,
the cell-zone / boundary-condition / monitor template XML files) are not
part of the source tree; they are represented by parameters of the
operation interpreter (`Env`).  The per-path schema lookup performed via
the `xmlschema` library is modelled by `Env.schemaOf`, mapping a resolved
element location to its declared `SchemaType`.  The whole-document
re-validation `assertValid` performed after successful mutations is
modelled as succeeding (its XSD is not in the source tree); all modelled
validation outcomes happen before any mutation in the source, so this
does not affect which values get stored.
-/

namespace CoreDB

/-! ### Python string primitives used by `coredb.py` -/

/-- Whitespace recognised by Python `str.split` / `str.strip` (ASCII fragment). -/
def pyIsSpace (c : Char) : Bool :=
  c = ' ' || c = '\t' || c = '\n' || c = '\x0d' || c = '\x0b' || c = '\x0c'

/-- Python `str.strip()` (ASCII whitespace fragment). -/
def pyStrip (s : String) : String :=
  ⟨(s.data.dropWhile pyIsSpace).reverse.dropWhile pyIsSpace |>.reverse⟩

/-- Python `str.lower()` (ASCII fragment). -/
def pyLower (s : String) : String :=
  ⟨s.data.map (fun c => if 'A' ≤ c && c ≤ 'Z' then Char.ofNat (c.toNat + 32) else c)⟩

/-- Helper for `pySplit`: split a character list on whitespace runs, the
accumulator holding the (reversed) token currently being read. -/
def splitAux : List Char → List Char → List (List Char)
  | [], acc => if acc.isEmpty then [] else [acc.reverse]
  | c :: cs, acc =>
    if pyIsSpace c then
      if acc.isEmpty then splitAux cs [] else acc.reverse :: splitAux cs []
    else splitAux cs (c :: acc)

/-- Python `str.split()` with no separator: whitespace runs, empty tokens dropped. -/
def pySplit (s : String) : List String :=
  (splitAux s.data []).map (fun cs => ⟨cs⟩)

/-- Python `' '.join(tokens)`. -/
def joinSpace (ts : List String) : String :=
  String.intercalate " " ts

/-- Contiguous-substring test, modelling Python `sub in s`. -/
def charsContain (sub : List Char) : List Char → Bool
  | [] => sub.isEmpty
  | c :: cs => sub.isPrefixOf (c :: cs) || charsContain sub cs

/-- Python `sub in s` on strings. -/
def strContains (s sub : String) : Bool :=
  charsContain sub.data s.data

/-! ### Python numeric literal parsing (`int()` and `float()`) -/

/-- Numeric value of a digit list, `none` if empty or a non-digit occurs. -/
def digitsVal : List Char → Option Nat
  | [] => none
  | cs =>
    if cs.all Char.isDigit then
      some (cs.foldl (fun a c => a * 10 + (c.toNat - '0'.toNat)) 0)
    else none

/-- Python `int(value)`: strip whitespace, optional sign, decimal digits only. -/
def parseInt (s : String) : Option Int :=
  match (pyStrip s).data with
  | '+' :: cs => (digitsVal cs).map Int.ofNat
  | '-' :: cs => (digitsVal cs).map (fun n => -(n : Int))
  | cs => (digitsVal cs).map Int.ofNat

/-- Mantissa of a float literal: `digits [. digits]` with at least one digit. -/
def parseMantissa (cs : List Char) : Option Rat :=
  match cs.splitOn '.' with
  | [ip] => (digitsVal ip).map (fun n => (n : Rat))
  | [ip, fp] =>
    if ip.isEmpty && fp.isEmpty then none
    else if (ip.all Char.isDigit) && (fp.all Char.isDigit) then
      some ((ip.foldl (fun a c => a * 10 + (c.toNat - '0'.toNat)) 0 : Nat)
        + (fp.foldl (fun a c => a * 10 + (c.toNat - '0'.toNat)) 0 : Nat) / (10 : Rat) ^ fp.length)
    else none
  | _ => none

/-- Optional exponent part after `e`/`E`. -/
def parseExponent (cs : List Char) : Option Int :=
  match cs with
  | '+' :: ds => (digitsVal ds).map Int.ofNat
  | '-' :: ds => (digitsVal ds).map (fun n => -(n : Int))
  | ds => (digitsVal ds).map Int.ofNat

/-- Unsigned float literal: mantissa with optional exponent. -/
def parseUnsigned (cs : List Char) : Option Rat :=
  match cs.splitOnP (fun c => c = 'e' || c = 'E') with
  | [m] => parseMantissa m
  | [m, ex] =>
    match parseMantissa m, parseExponent ex with
    | some v, some e => some (v * (10 : Rat) ^ e)
    | _, _ => none
  | _ => none

/-- Python `float(value)` on finite decimal literals (see module comment). -/
def parseFloat (s : String) : Option Rat :=
  match (pyStrip s).data with
  | '+' :: cs => parseUnsigned cs
  | '-' :: cs => (parseUnsigned cs).map Neg.neg
  | cs => parseUnsigned cs

/-! ### The error enumeration (`class Error`) and schema types -/

/-- The `Error` enumeration of `coredb.py`. -/
inductive Error where
  | outOfRange
  | integerOnly
  | floatOnly
  | referenced
  | empty
deriving DecidableEq, Repr

/-- Schema type of a leaf path, as read off the XSD by `setValue` through the
`xmlschema` library: the branch taken is decided by `local_name` /
`base_type.local_name` / `is_decimal()`, and the numeric facets are
`min_value` / `max_value`.  The XSD resource itself is not in the source
tree, so the catalog is a parameter (`Env.schemaOf`). -/
inductive SchemaType where
  /-- `inputNumberType` or a restriction of it: float with optional bounds. -/
  | inputNumber (minValue maxValue : Option Rat)
  /-- `inputNumberListType`: whitespace-separated float list.  The declared
  per-element bounds are carried for stating claims, but `setValue` never
  reads them in this branch. -/
  | inputNumberList (minValue maxValue : Option Rat)
  /-- Any other decimal simple type; `typeName` is its XSD local name, the
  subtype is integer iff the lowered name contains `integer`. -/
  | decimalType (typeName : String) (minValue maxValue : Option Rat)
  /-- String types; `some es` models a restriction carrying an enumeration. -/
  | stringType (enumeration : Option (List String))
deriving DecidableEq, Repr

/-- Outcome of the value-validation part of `setValue`. -/
inductive SVResult where
  /-- Validation passed; the given text is stored and `_modified` is set. -/
  | ok (newText : String)
  /-- Content-validation failure: the matching `Error` is returned and
  `_lastError` is set; the element text is untouched. -/
  | err (e : Error)
  /-- Hard failure (`ValueError` for an enumeration violation). -/
  | raised
deriving DecidableEq, Repr

/-- Check `decimal < minValue` / `decimal > maxValue` as `setValue` does;
`true` means out of range. -/
def boundsViolated (d : Rat) (minValue maxValue : Option Rat) : Bool :=
  (match minValue with | some m => decide (d < m) | none => false) ||
  (match maxValue with | some m => decide (m < d) | none => false)

/-- The value-validation and normalization logic of `CoreDB.setValue`
(lines 232–316), one branch per schema-type category. -/
def setValueCore : SchemaType → String → SVResult
  | .inputNumber minValue maxValue, value =>
    match parseFloat value with
    | none => .err .floatOnly
    | some decimal =>
      if boundsViolated decimal minValue maxValue then .err .outOfRange
      else .ok (pyStrip (pyLower value))
  | .inputNumberList _ _, value =>
    let numbers := pySplit value
    if numbers.all (fun n => (parseFloat n).isSome) then .ok (joinSpace numbers)
    else .err .floatOnly
  | .decimalType typeName minValue maxValue, value =>
    if strContains (pyLower typeName) "integer" then
      match parseInt value with
      | none => .err .integerOnly
      | some decimal =>
        if boundsViolated (decimal : Rat) minValue maxValue then .err .outOfRange
        else .ok (pyStrip (pyLower value))
    else
      match parseFloat value with
      | none => .err .floatOnly
      | some decimal =>
        if boundsViolated decimal minValue maxValue then .err .outOfRange
        else .ok (pyStrip (pyLower value))
  | .stringType enumeration, value =>
    match enumeration with
    | some es => if value ∈ es then .ok (pyStrip value) else .raised
    | none => .ok (pyStrip value)

/-! ### The document tree -/

/-- An XML element: tag, ordered attributes, ordered children, optional text.
Namespace prefixes are uniform throughout the document and are dropped. -/
inductive Element where
  | mk (tag : String) (attrs : List (String × String)) (children : List Element)
       (text : Option String)

/-- Tag accessor. -/
def Element.tag : Element → String
  | .mk t _ _ _ => t

/-- Attribute-list accessor. -/
def Element.attrs : Element → List (String × String)
  | .mk _ a _ _ => a

/-- Children accessor. -/
def Element.children : Element → List Element
  | .mk _ _ c _ => c

/-- Text accessor. -/
def Element.text : Element → Option String
  | .mk _ _ _ t => t

@[simp] theorem Element.tag_mk (t a c x) : (Element.mk t a c x).tag = t := rfl

@[simp] theorem Element.attrs_mk (t a c x) : (Element.mk t a c x).attrs = a := rfl

@[simp] theorem Element.children_mk (t a c x) : (Element.mk t a c x).children = c := rfl

@[simp] theorem Element.text_mk (t a c x) : (Element.mk t a c x).text = x := rfl

/-- An element with no attributes, children or text (`etree.SubElement`). -/
def emptyEl (t : String) : Element := .mk t [] [] none

/-- Size measure used for recursion over the nested tree. -/
theorem Element.sizeOf_child_lt {c e : Element} (h : c ∈ e.children) :
    sizeOf c < sizeOf e := by
  have h1 := List.sizeOf_lt_of_mem h
  cases e with
  | mk t a cs x => simp only [Element.children_mk] at h1; simp; omega

/-- Size of the child list is below the size of the element. -/
theorem Element.sizeOf_children_lt (e : Element) : sizeOf e.children < sizeOf e := by
  cases e
  simp
  omega

/-- Induction over the nested element tree. -/
theorem Element.indOn {motive : Element → Prop}
    (step : ∀ t a c x, (∀ e ∈ c, motive e) → motive (.mk t a c x)) :
    ∀ e, motive e
  | .mk t a c x =>
    step t a c x (fun e he => Element.indOn step e)
termination_by e => sizeOf e
decreasing_by exact Element.sizeOf_child_lt he

/-! ### Path queries

`coredb.py` addresses the tree with a fixed repertoire of ElementPath /
XPath queries (`.//tag`, child steps, `[name="x"]` predicates, `@attr` and
`text()` reads).  The helpers below implement exactly those shapes over
`Element`. -/

mutual

/-- Descendant-or-self axis in document (preorder) order, as used by the
leading `.//` step of every query in the source. -/
def dos (e : Element) : List Element :=
  e :: dosList e.children
termination_by sizeOf e
decreasing_by exact lt_of_le_of_lt (Nat.le_refl _) (Element.sizeOf_children_lt e)

/-- Preorder traversal of a forest. -/
def dosList : List Element → List Element
  | [] => []
  | c :: cs => dos c ++ dosList cs
termination_by l => sizeOf l
decreasing_by
  all_goals simp
  all_goals omega

end

/-- Children with a given tag (a child step `/t`). -/
def childrenTagged (t : String) (e : Element) : List Element :=
  e.children.filter (fun c => c.tag = t)

/-- Child step applied to a node list. -/
def childStep (t : String) (es : List Element) : List Element :=
  es.flatMap (childrenTagged t)

/-- Descendant step `.//t` from a root. -/
def descTagged (root : Element) (t : String) : List Element :=
  (dos root).filter (fun c => c.tag = t)

/-- ElementPath predicate `[name="x"]`: some `name` child has exactly text `x`. -/
def hasNameText (n : String) (e : Element) : Bool :=
  (childrenTagged "name" e).any (fun c => c.text = some n)

/-- Attribute lookup (`element.attrib[k]` / `element.get(k)`). -/
def getAttr (e : Element) (k : String) : Option String :=
  (e.attrs.find? (fun p => p.1 = k)).map (fun p => p.2)

/-- Attribute assignment (`element.set(k, v)`): replaces in place or appends. -/
def setAttr (e : Element) (k v : String) : Element :=
  .mk e.tag
    (if e.attrs.any (fun p => p.1 = k)
      then e.attrs.map (fun p => if p.1 = k then (k, v) else p)
      else e.attrs ++ [(k, v)])
    e.children e.text

/-- Append a child (`etree.SubElement` / `parent.append`). -/
def appendChild (e c : Element) : Element :=
  .mk e.tag e.attrs (e.children ++ [c]) e.text

/-- Replace the text of an element. -/
def withText (e : Element) (t : Option String) : Element :=
  .mk e.tag e.attrs e.children t

mutual

/-- Does the subtree contain an element with the given tag? -/
def containsTag (t : String) (e : Element) : Bool :=
  e.tag = t || containsTagList t e.children
termination_by sizeOf e
decreasing_by exact lt_of_le_of_lt (Nat.le_refl _) (Element.sizeOf_children_lt e)

/-- Forest version of `containsTag`. -/
def containsTagList (t : String) : List Element → Bool
  | [] => false
  | c :: cs => containsTag t c || containsTagList t cs
termination_by l => sizeOf l
decreasing_by
  all_goals simp
  all_goals omega

end

/-- Locations: a path of child indices, identifying the unique element an
xpath of the source resolved to (`findall(xpath)` returning one element). -/
def Loc := List Nat

/-- Element at a location. -/
def getAt (e : Element) : List Nat → Option Element
  | [] => some e
  | i :: is =>
    match e.children[i]? with
    | some c => getAt c is
    | none => none

/-- Apply a function to the element at a location (identity if invalid). -/
def modifyAt (e : Element) (loc : List Nat) (f : Element → Element) : Element :=
  match loc with
  | [] => f e
  | i :: is =>
    match e.children[i]? with
    | some c => .mk e.tag e.attrs (e.children.set i (modifyAt c is f)) e.text
    | none => e

mutual

/-- Apply `f` to the first element (preorder) with tag `t`, as a
`find('.//t')` followed by a mutation does; `none` when no such element. -/
def modifyFirstTagged (t : String) (f : Element → Element) (e : Element) :
    Option Element :=
  if e.tag = t then some (f e) else
    match modifyFirstInList t f e.children with
    | some cs => some (.mk e.tag e.attrs cs e.text)
    | none => none
termination_by sizeOf e
decreasing_by exact Element.sizeOf_children_lt e

/-- Rebuild a child list around the first subtree containing the tag. -/
def modifyFirstInList (t : String) (f : Element → Element) :
    List Element → Option (List Element)
  | [] => none
  | c :: cs =>
    match modifyFirstTagged t f c with
    | some c' => some (c' :: cs)
    | none => (modifyFirstInList t f cs).map (fun cs' => c :: cs')
termination_by l => sizeOf l
decreasing_by
  all_goals simp
  all_goals omega

end

/-! ### The bulk subtree codec (`setBulk` / `getBulk`)

Python values handled by the codec: ordered dictionaries, lists, and
primitive scalars.  Scalars are modelled by their string form (`str()` on
a string is the identity, which is the only scalar case the round-trip
claim can hold for; `str()` of a non-string container is modelled by
`pyRepr` below, without Python's escaping of quote characters). -/

/-- Generic nested value processed by `setBulk` and produced by `getBulk`. -/
inductive BV where
  | str (s : String)
  | dict (entries : List (String × BV))
  | list (items : List BV)

mutual

/-- Python `repr` of a codec value (quote escaping not modelled). -/
def pyRepr : BV → String
  | .str s => "'" ++ s ++ "'"
  | .dict l => "\x7b" ++ String.intercalate ", " (pyReprEntries l) ++ "\x7d"
  | .list l => "[" ++ String.intercalate ", " (pyReprItems l) ++ "]"
termination_by v => sizeOf v
decreasing_by
  all_goals simp
  all_goals omega

/-- Rendered `'key': value` pairs of a dict. -/
def pyReprEntries : List (String × BV) → List String
  | [] => []
  | (k, v) :: rest => ("'" ++ k ++ "': " ++ pyRepr v) :: pyReprEntries rest
termination_by l => sizeOf l
decreasing_by
  all_goals simp
  all_goals omega

/-- Rendered items of a list. -/
def pyReprItems : List BV → List String
  | [] => []
  | v :: rest => pyRepr v :: pyReprItems rest
termination_by l => sizeOf l
decreasing_by
  all_goals simp
  all_goals omega

end

/-- Python `str` of a codec value. -/
def pyStr : BV → String
  | .str s => s
  | v => pyRepr v

mutual

/-- Python `k.startswith(c)` for a one-character prefix, by first
character (kernel-reducible, unlike `String.startsWith`). -/
def startsWithCh (c : Char) (s : String) : Bool :=
  match s.data with
  | [] => false
  | c0 :: _ => c0 = c

/-- The recursive worker `_setBulkInternal` of `CoreDB.setBulk` (lines
340–364).  Entries are processed in order; the boolean is `false` when the
source raises (`TypeError` from `element.set` on a non-string attribute
value, `ValueError` for a non-dict item in a dict-headed list), in which
case the element already holds the partial content built before the
failure, as the mutating source does. -/
def setBulkInternal (e : Element) : List (String × BV) → Element × Bool
  | [] => (e, true)
  | (k, v) :: rest =>
    if startsWithCh '@' k then
      match v with
      | .str s => setBulkInternal (setAttr e (k.drop 1) s) rest
      | _ => (e, false)
    else if startsWithCh '$' k then
      setBulkInternal (withText e (some (pyStr v))) rest
    else
      match v with
      | .dict d =>
        let (child, ok) := setBulkInternal (emptyEl k) d
        let e' := appendChild e child
        if ok then setBulkInternal e' rest else (e', false)
      | .list [] => setBulkInternal (appendChild e (emptyEl k)) rest
      | .list (first :: more) =>
        match first with
        | .dict d0 =>
          let (e', ok) := setBulkDictItems e k (BV.dict d0 :: more)
          if ok then setBulkInternal e' rest else (e', false)
        | _ =>
          setBulkInternal
            ((first :: more).foldl
              (fun acc i => appendChild acc (withText (emptyEl k) (some (pyStr i)))) e)
            rest
      | .str s => setBulkInternal (appendChild e (withText (emptyEl k) (some s))) rest
termination_by l => sizeOf l
decreasing_by
  all_goals simp
  all_goals omega

/-- The dict-headed list loop inside `_setBulkInternal`: every item must be
a dict; prior items stay attached when a later item fails. -/
def setBulkDictItems (e : Element) (k : String) : List BV → Element × Bool
  | [] => (e, true)
  | item :: more =>
    match item with
    | .dict d =>
      let (child, ok) := setBulkInternal (emptyEl k) d
      let e' := appendChild e child
      if ok then setBulkDictItems e' k more else (e', false)
    | _ => (e, false)
termination_by l => sizeOf l
decreasing_by
  all_goals simp
  all_goals omega

end

/-- Ordered-dictionary assignment `data[k] = v`: updates in place, else
appends (Python dict insertion-order semantics). -/
def dictSet (l : List (String × BV)) (k : String) (v : BV) : List (String × BV) :=
  if l.any (fun p => p.1 = k) then l.map (fun p => if p.1 = k then (k, v) else p)
  else l ++ [(k, v)]

/-- Ordered-dictionary lookup. -/
def dictGet (l : List (String × BV)) (k : String) : Option BV :=
  (l.find? (fun p => p.1 = k)).map (fun p => p.2)

/-- Merge one child's serialization into the accumulated dictionary, as the
child loop of `_getBulkInternal` does (repeated tags collect into a list). -/
def mergeChild (d : List (String × BV)) (tag : String) (r : BV) : List (String × BV) :=
  match dictGet d tag with
  | some (.list xs) => dictSet d tag (.list (xs ++ [r]))
  | some old => dictSet d tag (.list [old, r])
  | none => dictSet d tag r

mutual

/-- The recursive worker `_getBulkInternal` of `CoreDB.getBulk` (lines
392–421): attributes first (keys prefixed with `@`), then children in
document order (repeated tags become lists), then the node's own text
under `$` — or the bare text when nothing else was collected. -/
def getBulkInternal (e : Element) : BV :=
  let d0 := e.attrs.foldl (fun d p => dictSet d ("@" ++ p.1) (BV.str p.2)) []
  let d1 := getBulkChildren d0 e.children
  match e.text with
  | some t => if d1.isEmpty then BV.str t else BV.dict (dictSet d1 "$" (BV.str t))
  | none => BV.dict d1
termination_by sizeOf e
decreasing_by exact lt_of_le_of_lt (Nat.le_refl _) (Element.sizeOf_children_lt e)

/-- The child loop of `_getBulkInternal`, folding serialized children into
the accumulated dictionary. -/
def getBulkChildren (d : List (String × BV)) : List Element → List (String × BV)
  | [] => d
  | c :: cs => getBulkChildren (mergeChild d c.tag (getBulkInternal c)) cs
termination_by l => sizeOf l
decreasing_by
  all_goals simp
  all_goals omega

end

/-- Entry point of `setBulk` (lines 366–379): the resolved element is
cleared (`elements[0].clear()` drops attributes, children and text) and
rebuilt from the dictionary.  Only the element's tag survives. -/
def setBulkOn (e : Element) (d : List (String × BV)) : Element × Bool :=
  setBulkInternal (emptyEl e.tag) d

/-! ### Entity registries: constants, id allocation and material queries -/

/-- `CoreDB.MONITOR_MAX_INDEX`. -/
def MONITOR_MAX_INDEX : Nat := 100

/-- `CoreDB.MATERIAL_MAX_INDEX`. -/
def MATERIAL_MAX_INDEX : Nat := 1000

/-- `CoreDB.CELL_ZONE_MAX_INDEX`. -/
def CELL_ZONE_MAX_INDEX : Nat := 1000

/-- `CoreDB.BOUNDARY_CONDITION_MAX_INDEX`. -/
def BOUNDARY_CONDITION_MAX_INDEX : Nat := 10000

/-- The id-allocation loop shared by `addMaterial`, `addCellZone` and
`addBoundaryCondition`: `for index in range(1, maxIndex)` breaking at the
first index whose decimal string is not in the used list, `none` when the
loop exhausts (`OverflowError`).  Python `range(1, maxIndex)` covers
`1 .. maxIndex - 1`. -/
def allocateId (maxIndex : Nat) (used : List String) : Option Nat :=
  (List.range' 1 (maxIndex - 1)).find? (fun i => !used.contains (toString i))

/-- The monitor default-name loop: probe `pfx + str(index)` for
`index in range(1, MONITOR_MAX_INDEX)`. -/
def allocateName (pfx : String) (used : List String) : Option String :=
  ((List.range' 1 (MONITOR_MAX_INDEX - 1)).find?
    (fun i => !used.contains (pfx ++ toString i))).map (fun i => pfx ++ toString i)

/-- First element with the tag in preorder — `find('.//t')`. -/
def firstTagged (root : Element) (t : String) : Option Element :=
  (descTagged root t).head?

/-- All material elements — `findall('.//materials/material')`. -/
def materialsOf (root : Element) : List Element :=
  childStep "material" (descTagged root "materials")

/-- The used material ids — xpath `.//x:materials/x:material/@mid` (elements
without the attribute contribute nothing). -/
def usedMids (root : Element) : List String :=
  (materialsOf root).filterMap (fun e => getAttr e "mid")

/-- First material with the given name — `find('.//materials/material[name="n"]')`. -/
def findMaterialByName (root : Element) (n : String) : Option Element :=
  ((materialsOf root).filter (hasNameText n)).head?

/-- The tuple list built by `getMaterials`: `int(mid)` and the `name` child
text per material (`chemicalFormula`/`phase` omitted: no claim reads them);
`none` when some `mid` attribute is missing or unparseable, modelling the
`KeyError`/`ValueError` the comprehension would raise. -/
def getMaterials (root : Element) : Option (List (Int × Option String)) :=
  (materialsOf root).mapM (fun e =>
    ((getAttr e "mid").bind parseInt).map
      (fun i => (i, ((childrenTagged "name" e).head?).bind Element.text)))

/-- The material-reference list `removeMaterial` actually consults: xpath
`.//x:cellZones/x:region/x:material/text()` (text of `material` children of
`region` children of `cellZones` elements). -/
def referencedMidsQueried (root : Element) : List String :=
  (childStep "material" (childStep "region" (descTagged root "cellZones"))).filterMap
    Element.text

/-- The material references the document actually contains: `addRegion`
stores the region's material id at `regions/region/material`, so this query
(`.//regions/region/material/text()`) is the one that reflects which
material ids are referenced. -/
def referencedMidsActual (root : Element) : List String :=
  (childStep "material" (childStep "region" (descTagged root "regions"))).filterMap
    Element.text

/-- Remove the first child satisfying the predicate (`parent.remove(el)` for
an element found among the parent's children). -/
def removeFirstChild (p : Element → Bool) : List Element → List Element
  | [] => []
  | c :: cs => if p c then cs else c :: removeFirstChild p cs

/-- Replace the text of the first child with the given tag
(`tmpl.find('name').text = n`); `none` when no such child exists. -/
def setTextOfFirst (t txt : String) : List Element → Option (List Element)
  | [] => none
  | c :: cs =>
    if c.tag = t then some (withText c (some txt) :: cs)
    else (setTextOfFirst t txt cs).map (fun cs' => c :: cs')

/-- Patch an element's first `t`-tagged child's text, as the template
patching in `addCellZone` / `addBoundaryCondition` / the monitor adders
does; `none` models the `AttributeError` when the template lacks the child. -/
def patchChildText (e : Element) (t txt : String) : Option Element :=
  (setTextOfFirst t txt e.children).map (fun cs => .mk e.tag e.attrs cs e.text)

/-- Apply `f` to the first `ct`-tagged child of a list; outer `none` when no
such child, inner `none` when `f` itself fails. -/
def applyAtFirstChild (ct : String) (f : Element → Option Element) :
    List Element → Option (Option (List Element))
  | [] => none
  | c :: cs =>
    if c.tag = ct then some ((f c).map (fun c' => c' :: cs))
    else (applyAtFirstChild ct f cs).map (fun r => r.map (fun cs' => c :: cs'))

mutual

/-- Apply `f` to the target of a two-step query `.//P/ct` where the parent
step `P` is characterized by `pp` (a tag test, possibly with a `[name="x"]`
predicate): the first parent in preorder carrying a `ct` child wins, as
ElementPath's `find` does.  Outer `none`: no match (`find` returned `None`);
`some none`: `f` failed on the match. -/
def modifyUnderFirst (pp : Element → Bool) (ct : String)
    (f : Element → Option Element) (e : Element) : Option (Option Element) :=
  match (if pp e then applyAtFirstChild ct f e.children else none) with
  | some r => some (r.map (fun cs => Element.mk e.tag e.attrs cs e.text))
  | none =>
    match modifyUnderFirstList pp ct f e.children with
    | some r => some (r.map (fun cs => Element.mk e.tag e.attrs cs e.text))
    | none => none
termination_by sizeOf e
decreasing_by exact Element.sizeOf_children_lt e

/-- List counterpart of `modifyUnderFirst`: rebuild around the first child
whose subtree contains a match. -/
def modifyUnderFirstList (pp : Element → Bool) (ct : String)
    (f : Element → Option Element) : List Element → Option (Option (List Element))
  | [] => none
  | c :: cs =>
    match modifyUnderFirst pp ct f c with
    | some r => some (r.map (fun c' => c' :: cs))
    | none => (modifyUnderFirstList pp ct f cs).map (fun r => r.map (fun cs' => c :: cs'))
termination_by l => sizeOf l
decreasing_by
  all_goals simp
  all_goals omega

end

/-! ### Monitors -/

/-- The four monitor registries. -/
inductive MonitorKind where
  | force
  | point
  | surface
  | volume
deriving DecidableEq, Repr

/-- Section tag under `monitors` (`forces` / `points` / `surfaces` / `volumes`). -/
def MonitorKind.sectionTag : MonitorKind → String
  | .force => "forces"
  | .point => "points"
  | .surface => "surfaces"
  | .volume => "volumes"

/-- Element tag of a monitor of this kind. -/
def MonitorKind.elemTag : MonitorKind → String
  | .force => "forceMonitor"
  | .point => "pointMonitor"
  | .surface => "surfaceMonitor"
  | .volume => "volumeMonitor"

/-- Default display-name stem (`FORCE_MONITOR_DEFAULT_NAME` etc.). -/
def MonitorKind.defaultName : MonitorKind → String
  | .force => "force-mon-"
  | .point => "point-mon-"
  | .surface => "surface-mon-"
  | .volume => "volume-mon-"

/-- Monitor names of a kind — xpath
`.//x:monitors/x:<section>/x:<kind>Monitor/x:name/text()`
(`getForceMonitors` and friends). -/
def getMonitors (kind : MonitorKind) (root : Element) : List String :=
  (childStep "name" (childStep kind.elemTag
    (childStep kind.sectionTag (descTagged root "monitors")))).filterMap Element.text

/-! ### The store state and the operation interpreter -/

/-- Python exceptions the store can raise (hard failures). -/
inductive PyExc where
  | lookupError
  | fileExistsError
  | overflowError
  | runtimeError
  | valueError
  | assertionError
  | attributeError
  | keyError
  /-- The dedicated cancellation signal (`class Cancel(Exception)`). -/
  | cancel
deriving DecidableEq, Repr

/-- Result communicated to the caller of one store operation. -/
inductive Outcome where
  /-- Normal return with no payload (Python `None`). -/
  | completed
  /-- Returned integer (the id handed out by the entity adders). -/
  | retNat (n : Nat)
  /-- Returned string (the name handed out by the monitor adders). -/
  | retStr (s : String)
  /-- Returned content-validation error value. -/
  | err (e : Error)
  /-- Raised exception. -/
  | raised (x : PyExc)
deriving DecidableEq, Repr

/-- The mutable singleton state of `CoreDB` (fields `_xmlTree`, `_modified`,
`_filePath`, `_inContext`, `_backupTree`, `_lastError`). -/
structure DB where
  xmlTree : Element
  modified : Bool
  filePath : Option String
  inContext : Bool
  backupTree : Option Element
  lastError : Option Error

/-- Static data the store reads from bundled resources that are not part of
the source tree, plus the schema catalog lookup.  `materialNames` and
`materialProps` stand for the rows of `materials.csv`; the template fields
stand for `cell_zone.xml`, `boundary_condition.xml` and the four monitor
template files. -/
structure Env where
  schemaOf : List Nat → Option SchemaType
  materialNames : List String
  materialProps : String → List Element
  cellZoneTemplate : Element
  boundaryConditionTemplate : Element
  monitorTemplate : MonitorKind → Element

/-- The material element `addMaterial` builds: `mid` attribute, `name`
child, then the property children derived from the material database row. -/
def mkMaterial (env : Env) (index : Nat) (name : String) : Element :=
  .mk "material" [("mid", toString index)]
    (Element.mk "name" [] [] (some name) :: env.materialProps name) none

/-- `CoreDB.getValue` (text read at a resolved location; the schema-lookup
hard failures do not affect the stored text and are omitted). -/
def getValue (root : Element) (loc : List Nat) : Option String :=
  (getAt root loc).bind Element.text

/-- `CoreDB.setValue` (lines 204–319) at a resolved location. -/
def setValue (env : Env) (db : DB) (loc : List Nat) (value : String) :
    DB × Outcome :=
  match getAt db.xmlTree loc with
  | none => (db, .raised .lookupError)
  | some _ =>
    match env.schemaOf loc with
    | none => (db, .raised .lookupError)
    | some st =>
      match setValueCore st value with
      | .ok newText =>
        ({ db with xmlTree := modifyAt db.xmlTree loc (fun e => withText e (some newText)),
                   modified := true }, .completed)
      | .err e => ({ db with lastError := some e }, .err e)
      | .raised => (db, .raised .valueError)

/-- `CoreDB.setAttribute` (lines 145–169). -/
def setAttribute (db : DB) (loc : List Nat) (name value : String) : DB × Outcome :=
  match getAt db.xmlTree loc with
  | none => (db, .raised .lookupError)
  | some el =>
    if el.attrs.any (fun p => p.1 = name) then
      ({ db with xmlTree := modifyAt db.xmlTree loc (fun e => setAttr e name value) },
        .completed)
    else (db, .raised .lookupError)

/-- `CoreDB.setBulk` (lines 321–379).  On a shape failure the source has
already cleared the element and attached the partial content when the
exception leaves, so the mutated tree is kept alongside the raise. -/
def setBulk (db : DB) (loc : List Nat) (d : List (String × BV)) : DB × Outcome :=
  if !db.inContext then (db, .raised .runtimeError)
  else
    match getAt db.xmlTree loc with
    | none => (db, .raised .lookupError)
    | some el =>
      let (el', ok) := setBulkOn el d
      let db' := { db with xmlTree := modifyAt db.xmlTree loc (fun _ => el') }
      if ok then (db', .completed) else (db', .raised .valueError)

/-- `CoreDB.addMaterial` (lines 451–523). -/
def addMaterial (env : Env) (db : DB) (name : String) : DB × Outcome :=
  if !env.materialNames.contains name then (db, .raised .lookupError)
  else if (findMaterialByName db.xmlTree name).isSome then (db, .raised .fileExistsError)
  else
    match allocateId MATERIAL_MAX_INDEX (usedMids db.xmlTree) with
    | none => (db, .raised .overflowError)
    | some index =>
      match modifyFirstTagged "materials"
          (fun p => appendChild p (mkMaterial env index name)) db.xmlTree with
      | none => (db, .raised .attributeError)
      | some tree' => ({ db with xmlTree := tree' }, .retNat index)

/-- `CoreDB.removeMaterial` (lines 525–543).  Content-validation errors are
returned without setting `_lastError`. -/
def removeMaterial (db : DB) (name : String) : DB × Outcome :=
  match firstTagged db.xmlTree "materials" with
  | none => (db, .raised .attributeError)
  | some parent =>
    match ((childrenTagged "material" parent).filter (hasNameText name)).head? with
    | none => (db, .raised .lookupError)
    | some material =>
      match getAttr material "mid" with
      | none => (db, .raised .keyError)
      | some mid =>
        if (referencedMidsQueried db.xmlTree).contains mid then (db, .err .referenced)
        else if (materialsOf db.xmlTree).length = 1 then (db, .err .empty)
        else
          match modifyFirstTagged "materials"
              (fun p => Element.mk p.tag p.attrs
                (removeFirstChild (fun c => c.tag = "material" && hasNameText name c)
                  p.children) p.text) db.xmlTree with
          | none => (db, .raised .attributeError)
          | some tree' => ({ db with xmlTree := tree' }, .completed)

/-- `CoreDB.addRegion` (lines 545–572). -/
def addRegion (env : Env) (db : DB) (rname : String) : DB × Outcome :=
  if !((childStep "region" (descTagged db.xmlTree "regions")).filter
      (hasNameText rname)).isEmpty then (db, .raised .fileExistsError)
  else
    match firstTagged db.xmlTree "regions" with
    | none => (db, .raised .attributeError)
    | some _ =>
      match getMaterials db.xmlTree with
      | none => (db, .raised .valueError)
      | some materials =>
        match materials.head? with
        | none => (db, .raised .assertionError)
        | some m0 =>
          let region : Element := .mk "region" []
            [ .mk "name" [] [] (some rname),
              .mk "material" [] [] (some (toString m0.1)),
              .mk "cellZones" [] [env.cellZoneTemplate] none,
              .mk "boundaryConditions" [] [] none ] none
          match modifyFirstTagged "regions" (fun p => appendChild p region)
              db.xmlTree with
          | none => (db, .raised .attributeError)
          | some tree' => ({ db with xmlTree := tree' }, .completed)

/-- Region names — xpath `.//x:region/x:name/text()` (`getRegions`). -/
def getRegions (root : Element) : List String :=
  (childStep "name" (descTagged root "region")).filterMap Element.text

/-- Cell zones of a region — `findall('.//region[name="r"]/cellZones/cellZone')`. -/
def cellZonesOf (root : Element) (rname : String) : List Element :=
  childStep "cellZone" (childStep "cellZones"
    ((descTagged root "region").filter (hasNameText rname)))

/-- `CoreDB.addCellZone` (lines 578–604). -/
def addCellZone (env : Env) (db : DB) (rname zname : String) : DB × Outcome :=
  if !((cellZonesOf db.xmlTree rname).filter (hasNameText zname)).isEmpty then
    (db, .raised .fileExistsError)
  else
    match allocateId CELL_ZONE_MAX_INDEX
        ((cellZonesOf db.xmlTree rname).filterMap (fun e => getAttr e "czid")) with
    | none => (db, .raised .overflowError)
    | some index =>
      match patchChildText env.cellZoneTemplate "name" zname with
      | none => (db, .raised .attributeError)
      | some zone0 =>
        let zone := setAttr zone0 "czid" (toString index)
        match modifyUnderFirst
            (fun e => e.tag = "region" && hasNameText rname e) "cellZones"
            (fun cz => some (appendChild cz zone)) db.xmlTree with
        | none => (db, .raised .attributeError)
        | some none => (db, .raised .attributeError)
        | some (some tree') => ({ db with xmlTree := tree' }, .retNat index)

/-- Boundary conditions of a region —
`findall('.//region[name="r"]/boundaryConditions/boundaryCondition')`. -/
def boundaryConditionsOf (root : Element) (rname : String) : List Element :=
  childStep "boundaryCondition" (childStep "boundaryConditions"
    ((descTagged root "region").filter (hasNameText rname)))

/-- `CoreDB.addBoundaryCondition` (lines 610–639). -/
def addBoundaryCondition (env : Env) (db : DB) (rname bname : String)
    (geometricalType : Option String) : DB × Outcome :=
  if !((boundaryConditionsOf db.xmlTree rname).filter (hasNameText bname)).isEmpty then
    (db, .raised .fileExistsError)
  else
    match allocateId BOUNDARY_CONDITION_MAX_INDEX
        ((boundaryConditionsOf db.xmlTree rname).filterMap
          (fun e => getAttr e "bcid")) with
    | none => (db, .raised .overflowError)
    | some index =>
      match patchChildText env.boundaryConditionTemplate "name" bname with
      | none => (db, .raised .attributeError)
      | some bc0 =>
        let bc1 := setAttr bc0 "bcid" (toString index)
        match (match geometricalType with
               | some gt => patchChildText bc1 "geometricalType" gt
               | none => some bc1) with
        | none => (db, .raised .attributeError)
        | some bc =>
          match modifyUnderFirst
              (fun e => e.tag = "region" && hasNameText rname e) "boundaryConditions"
              (fun p => some (appendChild p bc)) db.xmlTree with
          | none => (db, .raised .attributeError)
          | some none => (db, .raised .attributeError)
          | some (some tree') => ({ db with xmlTree := tree' }, .retNat index)

/-- The four `add*Monitor` methods (lines 647–666 and analogues). -/
def addMonitor (env : Env) (db : DB) (kind : MonitorKind) : DB × Outcome :=
  match allocateName kind.defaultName (getMonitors kind db.xmlTree) with
  | none => (db, .raised .overflowError)
  | some monitorName =>
    match patchChildText (env.monitorTemplate kind) "name" monitorName with
    | none => (db, .raised .attributeError)
    | some monitor =>
      match modifyUnderFirst (fun e => e.tag = "monitors") kind.sectionTag
          (fun p => some (appendChild p monitor)) db.xmlTree with
      | none => (db, .raised .attributeError)
      | some none => (db, .raised .attributeError)
      | some (some tree') => ({ db with xmlTree := tree' }, .retStr monitorName)

/-- The four `remove*Monitor` methods (lines 668–674 and analogues): the
monitor is looked up globally (`LookupError` when absent), then removed from
the first section of the kind (`parent.remove` raising `ValueError` when the
match lives in a later section). -/
def removeMonitor (db : DB) (kind : MonitorKind) (name : String) : DB × Outcome :=
  if ((childStep kind.elemTag (childStep kind.sectionTag
      (descTagged db.xmlTree "monitors"))).filter (hasNameText name)).isEmpty then
    (db, .raised .lookupError)
  else
    match modifyUnderFirst (fun e => e.tag = "monitors") kind.sectionTag
        (fun p =>
          if (p.children.filter
              (fun c => c.tag = kind.elemTag && hasNameText name c)).isEmpty then none
          else some (Element.mk p.tag p.attrs
            (removeFirstChild (fun c => c.tag = kind.elemTag && hasNameText name c)
              p.children) p.text)) db.xmlTree with
    | none => (db, .raised .attributeError)
    | some none => (db, .raised .valueError)
    | some (some tree') => ({ db with xmlTree := tree' }, .completed)

/-- `CoreDB.saveAs` (lines 783–796); the container write is modelled as
succeeding. -/
def saveAs (db : DB) (path : String) : DB × Outcome :=
  ({ db with filePath := some path, modified := false }, .completed)

/-- `CoreDB.save` (lines 798–806): raises when no file path is set (the
slot/dtype checks of the container are modelled as passing). -/
def save (db : DB) : DB × Outcome :=
  match db.filePath with
  | none => (db, .raised .valueError)
  | some _ => ({ db with modified := false }, .completed)

/-- `CoreDB.load` (lines 808–817): `content` is the tree parsed from the
container (`none` when the file misses the slot or fails the schema-
validating parse, in which case nothing has been assigned yet). -/
def load (db : DB) (path : String) (content : Option Element) : DB × Outcome :=
  match content with
  | none => (db, .raised .valueError)
  | some root =>
    ({ db with xmlTree := root, filePath := some path, modified := false }, .completed)

/-- One call against the store, as issued by a caller (locations stand for
the xpath arguments already resolved to a unique element). -/
inductive DBOp where
  | setValue (loc : List Nat) (value : String)
  | setAttribute (loc : List Nat) (name value : String)
  | setBulk (loc : List Nat) (d : List (String × BV))
  | addMaterial (name : String)
  | removeMaterial (name : String)
  | addRegion (rname : String)
  | addCellZone (rname zname : String)
  | addBoundaryCondition (rname bname : String) (geometricalType : Option String)
  | addMonitor (kind : MonitorKind)
  | removeMonitor (kind : MonitorKind) (name : String)
  | saveAs (path : String)
  | save
  | load (path : String) (content : Option Element)
  /-- Caller code inside a `with` block raising `Cancel` to abandon the
  session (absorbed by `__exit__`). -/
  | raiseCancel

/-- Dispatch one operation. -/
def applyOp (env : Env) (db : DB) : DBOp → DB × Outcome
  | .setValue loc value => setValue env db loc value
  | .setAttribute loc name value => setAttribute db loc name value
  | .setBulk loc d => setBulk db loc d
  | .addMaterial name => addMaterial env db name
  | .removeMaterial name => removeMaterial db name
  | .addRegion rname => addRegion env db rname
  | .addCellZone rname zname => addCellZone env db rname zname
  | .addBoundaryCondition r b g => addBoundaryCondition env db r b g
  | .addMonitor kind => addMonitor env db kind
  | .removeMonitor kind name => removeMonitor db kind name
  | .saveAs path => saveAs db path
  | .save => save db
  | .load path content => load db path content
  | .raiseCancel => (db, .raised .cancel)

/-! ### The transactional edit session (`__enter__` / `__exit__`) -/

/-- `CoreDB.__enter__` (lines 96–101): deep-snapshot the tree, clear the
pending error, mark the context (the deep copy is plain sharing in the
immutable model). -/
def enterSession (db : DB) : DB :=
  { db with backupTree := some db.xmlTree, lastError := none, inContext := true }

/-- `CoreDB.__exit__` (lines 103–116): roll back to the snapshot when a
pending error is recorded or the body raised; always clear the session
fields.  (`Cancel` is absorbed, other exceptions propagate — the tree
effect is identical.) -/
def exitSession (db : DB) (bodyRaised : Bool) : DB :=
  { db with
    xmlTree := if db.lastError.isSome || bodyRaised then db.backupTree.getD db.xmlTree
               else db.xmlTree,
    lastError := none, backupTree := none, inContext := false }

/-- Run the calls of a session body in order; a raised exception aborts the
rest of the body (it propagates to `__exit__`).  Returns the final state,
whether the body raised, and the trace of call outcomes. -/
def runOps (env : Env) (db : DB) : List DBOp → DB × Bool × List Outcome
  | [] => (db, false, [])
  | op :: rest =>
    match applyOp env db op with
    | (db', .raised x) => (db', true, [.raised x])
    | (db', out) =>
      let (db'', raised, trace) := runOps env db' rest
      (db'', raised, out :: trace)

/-- A whole `with` block: enter, run the body, exit. -/
def runSession (env : Env) (db : DB) (ops : List DBOp) : DB :=
  let (db', bodyRaised, _) := runOps env (enterSession db) ops
  exitSession db' bodyRaised

/-! ### Derived notions used to state the claims -/

/-- A schema type that is a bounded numeric leaf in the sense of the spec:
integer or float with both inclusive bounds declared.  Returns the integer
flag and the bounds. -/
def numericBounded : SchemaType → Option (Bool × Rat × Rat)
  | .inputNumber (some lo) (some hi) => some (false, lo, hi)
  | .decimalType typeName (some lo) (some hi) =>
    some (strContains (pyLower typeName) "integer", lo, hi)
  | _ => none

/-- Parse per the declared subtype: `int()` for integer-named types,
`float()` otherwise (integers compared as rationals). -/
def parseAs (isInt : Bool) (v : String) : Option Rat :=
  if isInt then (parseInt v).map (fun i => (i : Rat)) else parseFloat v

/-! ### Concrete fixtures used by witnesses and counterexamples -/

/-- A small schema catalog: location `[0]` is a bounded integer leaf,
location `[1]` a float-list leaf with declared element bounds `[0, 1]`,
location `[2]` an unrestricted string leaf. -/
def witnessEnv : Env :=
  { schemaOf := fun loc =>
      if loc = [0] then some (.decimalType "testIntegerType" (some 0) (some 100))
      else if loc = [1] then some (.inputNumberList (some 0) (some 1))
      else if loc = [2] then some (.stringType none)
      else none,
    materialNames := ["air", "oxygen", "nitrogen"],
    materialProps := fun _ => [],
    cellZoneTemplate := .mk "cellZone" [] [.mk "name" [] [] (some "All")] none,
    boundaryConditionTemplate :=
      .mk "boundaryCondition" []
        [.mk "name" [] [] none, .mk "physicalType" [] [] (some "wall"),
         .mk "geometricalType" [] [] none] none,
    monitorTemplate := fun k => .mk k.elemTag [] [.mk "name" [] [] none] none }

/-- A small document: two leaves, a materials section holding `air` with
id 1, an empty regions section and an empty monitors scaffold. -/
def witnessDoc : Element :=
  .mk "configuration" []
    [ .mk "value" [] [] (some "5"),
      .mk "vlist" [] [] (some "0.5"),
      .mk "materials" []
        [.mk "material" [("mid", "1")] [.mk "name" [] [] (some "air")] none] none,
      .mk "regions" [] [] none,
      .mk "monitors" []
        [.mk "forces" [] [] none, .mk "points" [] [] none,
         .mk "surfaces" [] [] none, .mk "volumes" [] [] none] none ] none

/-- Fresh store state over `witnessDoc`. -/
def witnessDb : DB :=
  { xmlTree := witnessDoc, modified := false, filePath := none,
    inContext := false, backupTree := none, lastError := none }

/-- Document for the referential-integrity check: two materials (`air`
mid 1, `oxygen` mid 2) and a region whose `material` child holds the
text `1`, exactly the layout `addRegion` produces (the reference sits at
`regions/region/material`, with `cellZones` a sibling of that child). -/
def refDoc : Element :=
  .mk "configuration" []
    [ .mk "materials" []
        [.mk "material" [("mid", "1")] [.mk "name" [] [] (some "air")] none,
         .mk "material" [("mid", "2")]
           [.mk "name" [] [] (some "oxygen")] none] none,
      .mk "regions" []
        [.mk "region" []
          [.mk "name" [] [] (some "region1"),
           .mk "material" [] [] (some "1"),
           .mk "cellZones" [] [] none,
           .mk "boundaryConditions" [] [] none] none] none ] none

/-! ### Well-formed bulk mappings

The round-trip analysis of `setBulk`/`getBulk` needs a class of mappings
on which the codec is lossless.  `wfDict` accepts a mapping when:
attribute entries (`@` keys, string values) come first, then plain child
entries, then at most one final `$` text entry (string value); keys are
distinct; every list value holds at least two items, all strings or all
well-formed dicts; nested dict values are well-formed recursively; and a
mapping is not a sole `$` entry (which would read back as a bare
string). -/

/-- Is the codec value a plain string? -/
def isStrB : BV → Bool
  | .str _ => true
  | _ => false

/-- The string under `.str` (`""` otherwise). -/
def strOf : BV → String
  | .str s => s
  | _ => ""

/-- Key list without repetitions. -/
def nodupKeys : List String → Bool
  | [] => true
  | k :: ks => !ks.contains k && nodupKeys ks

/-- A mapping whose sole entry is the text key collapses on read-back. -/
def dollarGuard : List (String × BV) → Bool
  | [("$", _)] => false
  | _ => true

/-- All items of a list value are strings. -/
def wfItemsStr : List BV → Bool
  | [] => true
  | i :: is => isStrB i && wfItemsStr is

mutual

/-- Values that survive the round trip (see the section comment). -/
def wfVal : BV → Bool
  | .str _ => true
  | .dict d => wfEntries 0 d && nodupKeys (d.map Prod.fst) && dollarGuard d
  | .list [] => false
  | .list (x :: xs) =>
    decide (1 ≤ xs.length) &&
    (wfItemsStr (x :: xs) || wfItemsDict (x :: xs))
termination_by v => sizeOf v
decreasing_by
  all_goals simp
  all_goals omega

/-- Entry sequence check: attributes (phase 0) precede plain keys (phase
1), the text key comes last, attribute keys reconstruct as
`"@" ++ name`, attribute and text values are strings. -/
def wfEntries : Nat → List (String × BV) → Bool
  | _, [] => true
  | ph, (k, v) :: rest =>
    if k = "$" then isStrB v && rest.isEmpty
    else if startsWithCh '@' k then
      decide (ph = 0) && decide ("@" ++ k.drop 1 = k) && isStrB v &&
      wfEntries 0 rest
    else
      !startsWithCh '$' k && wfVal v && wfEntries 1 rest
termination_by _ l => sizeOf l
decreasing_by
  all_goals simp
  all_goals omega

/-- All items of a list value are well-formed dicts. -/
def wfItemsDict : List BV → Bool
  | [] => true
  | i :: is =>
    (match i with
     | .dict di =>
       wfEntries 0 di && nodupKeys (di.map Prod.fst) && dollarGuard di
     | _ => false) && wfItemsDict is
termination_by l => sizeOf l
decreasing_by
  all_goals simp
  all_goals omega

end

/-- Mappings on which the round-trip law holds. -/
def wfDict (d : List (String × BV)) : Bool :=
  wfEntries 0 d && nodupKeys (d.map Prod.fst) && dollarGuard d

/-- The children `_setBulkInternal` adds for one plain entry. -/
def encodeVal (k : String) : BV → List Element
  | .str s => [withText (emptyEl k) (some s)]
  | .dict d' => [(setBulkInternal (emptyEl k) d').1]
  | .list [] => [emptyEl k]
  | .list (first :: more) =>
    match first with
    | .dict _ =>
      (first :: more).map (fun i =>
        (setBulkInternal (emptyEl k)
          (match i with | .dict di => di | _ => [])).1)
    | _ =>
      (first :: more).map (fun i => withText (emptyEl k) (some (pyStr i)))

/-- Attribute pairs a mapping installs (`@` entries, in order). -/
def attrList : List (String × BV) → List (String × String)
  | [] => []
  | (k, v) :: rest =>
    if startsWithCh '@' k then (k.drop 1, strOf v) :: attrList rest
    else attrList rest

/-- Child elements a mapping installs (plain entries, in order). -/
def kidList : List (String × BV) → List Element
  | [] => []
  | (k, v) :: rest =>
    if startsWithCh '@' k || startsWithCh '$' k then kidList rest
    else encodeVal k v ++ kidList rest

/-- The text a mapping installs, if any. -/
def textOpt : List (String × BV) → Option String
  | [] => none
  | (k, v) :: rest =>
    if !startsWithCh '@' k && startsWithCh '$' k then some (pyStr v)
    else textOpt rest

/-- `@` entries of a mapping, as they read back. -/
def attrEntries : List (String × BV) → List (String × BV)
  | [] => []
  | (k, v) :: rest =>
    if startsWithCh '@' k then (k, v) :: attrEntries rest
    else attrEntries rest

/-- Plain child entries of a mapping. -/
def plainEntries : List (String × BV) → List (String × BV)
  | [] => []
  | (k, v) :: rest =>
    if startsWithCh '@' k || startsWithCh '$' k then plainEntries rest
    else (k, v) :: plainEntries rest

/-- Two-argument merge step of the repeated-tag collection in
`_getBulkInternal`. -/
def merge2 (cur r : BV) : BV :=
  match cur with
  | .list xs => .list (xs ++ [r])
  | old => .list [old, r]

/-- First-defined option (the text installed by the mapping, else the
accumulator's own). -/
def orElseOpt (o t : Option String) : Option String :=
  match o with
  | some s => some s
  | none => t

/-- Fresh store state over `refDoc`. -/
def refDb : DB :=
  { xmlTree := refDoc, modified := false, filePath := none,
    inContext := false, backupTree := none, lastError := none }

/-- `refDoc` with the `air` material detached. -/
def refDocAfter : Element :=
  .mk "configuration" []
    [ .mk "materials" []
        [.mk "material" [("mid", "2")]
           [.mk "name" [] [] (some "oxygen")] none] none,
      .mk "regions" []
        [.mk "region" []
          [.mk "name" [] [] (some "region1"),
           .mk "material" [] [] (some "1"),
           .mk "cellZones" [] [] none,
           .mk "boundaryConditions" [] [] none] none] none ] none


/-- One step of the session body, as a function of the op's result and of
the result of the remaining body (used to unfold `runOps` one call at a
time in concrete sessions). -/
def stepResult (db' : DB) (out : Outcome) (rec : DB × Bool × List Outcome) :
    DB × Bool × List Outcome :=
  match out with
  | .raised x => (db', true, [Outcome.raised x])
  | _ => (rec.1, rec.2.1, out :: rec.2.2)

/-- The materials section of `witnessDoc`. -/
def witnessMaterialsEl : Element :=
  .mk "materials" []
    [.mk "material" [("mid", "1")] [.mk "name" [] [] (some "air")] none] none


end CoreDB

namespace CoreDB

/-! ### Supporting lemmas -/

theorem boundsViolated_some (d lo hi : Rat) :
    boundsViolated d (some lo) (some hi) = !decide (lo ≤ d ∧ d ≤ hi) := by
  rcases lt_or_le d lo with h1 | h1
  · simp [boundsViolated, h1, not_le.mpr h1]
  · rcases lt_or_le hi d with h2 | h2
    · simp [boundsViolated, not_lt.mpr h1, h2, not_le.mpr h2]
    · simp [boundsViolated, not_lt.mpr h1, not_lt.mpr h2, h1, h2]

theorem svres_if_reduce (lo hi d : Rat) (s : String) :
    (if boundsViolated d (some lo) (some hi) then SVResult.err .outOfRange
      else SVResult.ok s) =
      if lo ≤ d ∧ d ≤ hi then SVResult.ok s else SVResult.err .outOfRange := by
  rw [boundsViolated_some]
  by_cases hb : lo ≤ d ∧ d ≤ hi <;> simp [hb]

theorem getAt_modifyAt (loc : List Nat) (root : Element) (f : Element → Element) :
    getAt (modifyAt root loc f) loc = (getAt root loc).map f := by
  induction loc generalizing root with
  | nil => simp [getAt, modifyAt]
  | cons i is ih =>
    rw [modifyAt]
    cases h : root.children[i]? with
    | none => simp [getAt, h]
    | some c =>
      have hi : i < root.children.length := by
        by_contra hlen
        rw [List.getElem?_eq_none (by omega)] at h
        exact Option.noConfusion h
      rw [getAt]
      simp only [Element.children_mk]
      rw [List.getElem?_set_self (by simpa using hi), getAt, h]
      exact ih c

/-- The numeric-leaf branches of `setValueCore`, characterized by parse
result and bounds. -/
theorem setValueCore_numeric (st : SchemaType) (isInt : Bool) (lo hi : Rat)
    (hnum : numericBounded st = some (isInt, lo, hi)) (v : String) :
    setValueCore st v =
      match parseAs isInt v with
      | none => .err (if isInt then .integerOnly else .floatOnly)
      | some d =>
        if lo ≤ d ∧ d ≤ hi then .ok (pyStrip (pyLower v)) else .err .outOfRange := by
  cases st with
  | inputNumber mn mx =>
    cases mn with
    | none => simp [numericBounded] at hnum
    | some lo1 =>
      cases mx with
      | none => simp [numericBounded] at hnum
      | some hi1 =>
        simp only [numericBounded, Option.some.injEq, Prod.mk.injEq] at hnum
        obtain ⟨hI, hlo, hhi⟩ := hnum
        subst hI; subst hlo; subst hhi
        simp only [setValueCore, parseAs, if_neg Bool.false_ne_true]
        cases hp : parseFloat v with
        | none => rfl
        | some d => exact svres_if_reduce lo1 hi1 d _
  | inputNumberList mn mx => simp [numericBounded] at hnum
  | decimalType typeName mn mx =>
    cases mn with
    | none => simp [numericBounded] at hnum
    | some lo1 =>
      cases mx with
      | none => simp [numericBounded] at hnum
      | some hi1 =>
        simp only [numericBounded, Option.some.injEq, Prod.mk.injEq] at hnum
        obtain ⟨hI, hlo, hhi⟩ := hnum
        subst hI; subst hlo; subst hhi
        simp only [setValueCore, parseAs]
        cases hint : strContains (pyLower typeName) "integer" with
        | true =>
          simp only [hint, if_pos rfl]
          cases hp : parseInt v with
          | none => rfl
          | some d =>
            simp only [Option.map_some]
            exact svres_if_reduce lo1 hi1 (d : Rat) _
        | false =>
          simp only [hint, if_neg Bool.false_ne_true]
          cases hp : parseFloat v with
          | none => rfl
          | some d => exact svres_if_reduce lo1 hi1 d _
  | stringType en => simp [numericBounded] at hnum

/-- Reduction of `setValue` at a resolvable location to the core logic. -/
theorem setValue_eq_core (env : Env) (db : DB) (loc : List Nat) (v : String)
    (st : SchemaType) (el : Element)
    (hschema : env.schemaOf loc = some st)
    (helx : getAt db.xmlTree loc = some el) :
    setValue env db loc v =
      match setValueCore st v with
      | .ok newText =>
        ({ db with xmlTree := modifyAt db.xmlTree loc (fun e => withText e (some newText)),
                   modified := true }, .completed)
      | .err e => ({ db with lastError := some e }, .err e)
      | .raised => (db, .raised .valueError) := by
  simp only [setValue, helx, hschema]

/-! ### Claim theorems -/

/-- C1.  For a path whose schema type is a bounded numeric leaf with
inclusive bounds `[lo, hi]`, `setValue` succeeds exactly when the value
parses per the declared subtype (`int` for integer-named types, `float`
otherwise) and the parsed value lies within the bounds; a parse failure
returns `IntegerOnly`/`FloatOnly`, an out-of-bounds value `OutOfRange`, in
every failing case the tree — hence a subsequent `getValue` — is
unchanged, and on success the trimmed lowercased value is stored. -/
theorem setValue_bounded_numeric_spec (env : Env) (db : DB) (loc : List Nat)
    (v : String) (st : SchemaType) (isInt : Bool) (lo hi : Rat)
    (hschema : env.schemaOf loc = some st)
    (hnum : numericBounded st = some (isInt, lo, hi))
    (hel : (getAt db.xmlTree loc).isSome) :
    (∀ d, parseAs isInt v = some d → lo ≤ d ∧ d ≤ hi →
      (setValue env db loc v).2 = .completed ∧
      getValue (setValue env db loc v).1.xmlTree loc = some (pyStrip (pyLower v)) ∧
      (setValue env db loc v).1.modified = true) ∧
    (∀ d, parseAs isInt v = some d → ¬(lo ≤ d ∧ d ≤ hi) →
      (setValue env db loc v).2 = .err .outOfRange ∧
      (setValue env db loc v).1.xmlTree = db.xmlTree ∧
      getValue (setValue env db loc v).1.xmlTree loc = getValue db.xmlTree loc) ∧
    (parseAs isInt v = none →
      (setValue env db loc v).2 = .err (if isInt then .integerOnly else .floatOnly) ∧
      (setValue env db loc v).1.xmlTree = db.xmlTree ∧
      getValue (setValue env db loc v).1.xmlTree loc = getValue db.xmlTree loc) := by
  obtain ⟨el, helx⟩ := Option.isSome_iff_exists.mp hel
  have hsv := setValue_eq_core env db loc v st el hschema helx
  rw [setValueCore_numeric st isInt lo hi hnum v] at hsv
  refine ⟨?_, ?_, ?_⟩
  · intro d hd hb
    rw [hd] at hsv
    simp only [if_pos hb] at hsv
    rw [hsv]
    refine ⟨rfl, ?_, rfl⟩
    simp only [getValue, getAt_modifyAt, helx, Option.map_some, Option.bind_some]
    rfl
  · intro d hd hb
    rw [hd] at hsv
    simp only [if_neg hb] at hsv
    rw [hsv]
    exact ⟨rfl, rfl, rfl⟩
  · intro hd
    rw [hd] at hsv
    rw [hsv]
    exact ⟨rfl, rfl, rfl⟩

/-- Witness for C1: the bounded integer leaf at location `[0]` of the
fixture accepts `"7"` (parsed value 7 lies in `[0, 100]`) and stores it. -/
theorem setValue_bounded_numeric_spec_witness :
    (witnessEnv.schemaOf [0] = some (.decimalType "testIntegerType" (some 0) (some 100)) ∧
      numericBounded (.decimalType "testIntegerType" (some 0) (some 100)) =
        some (true, 0, 100) ∧
      (getAt witnessDb.xmlTree [0]).isSome = true ∧
      parseAs true "7" = some 7 ∧ ((0 : Rat) ≤ 7 ∧ (7 : Rat) ≤ 100)) ∧
    ((setValue witnessEnv witnessDb [0] "7").2 = .completed ∧
      getValue (setValue witnessEnv witnessDb [0] "7").1.xmlTree [0] =
        some (pyStrip (pyLower "7")) ∧
      (setValue witnessEnv witnessDb [0] "7").1.modified = true) :=
  ⟨⟨rfl, by decide, rfl, by decide, by norm_num⟩,
    (setValue_bounded_numeric_spec witnessEnv witnessDb [0] "7"
      (.decimalType "testIntegerType" (some 0) (some 100)) true 0 100
      rfl (by decide) rfl).1 7 (by decide) (by norm_num)⟩

/-- Counterexample to C5 as stated: the float-list leaf at location `[1]`
declares element bounds `[0, 1]`; the value `"5"` parses and violates the
bounds (`boundsViolated` holds), yet `setValue` accepts and stores it
instead of returning `OutOfRange` — the list branch of the source never
reads the bounds facets. -/
theorem setValue_float_list_counterexample :
    parseFloat "5" = some 5 ∧
    boundsViolated 5 (some 0) (some 1) = true ∧
    setValueCore (.inputNumberList (some 0) (some 1)) "5" = .ok "5" ∧
    witnessEnv.schemaOf [1] = some (.inputNumberList (some 0) (some 1)) ∧
    (setValue witnessEnv witnessDb [1] "5").2 = .completed ∧
    getValue (setValue witnessEnv witnessDb [1] "5").1.xmlTree [1] = some "5" := by
  decide

/-- C5 amended.  On a float-list leaf, `setValue` checks only that every
whitespace-separated token parses as a float: if all do, the call succeeds
regardless of the declared bounds (which are quantified arbitrarily here
and never consulted) and stores the tokens re-joined with single spaces;
if any token fails to parse, the call returns `FloatOnly` and the tree —
hence a subsequent `getValue` — is unchanged. -/
theorem setValue_float_list_amended (env : Env) (db : DB) (loc : List Nat)
    (v : String) (lo hi : Option Rat)
    (hschema : env.schemaOf loc = some (.inputNumberList lo hi))
    (hel : (getAt db.xmlTree loc).isSome) :
    ((pySplit v).all (fun n => (parseFloat n).isSome) = true →
      (setValue env db loc v).2 = .completed ∧
      getValue (setValue env db loc v).1.xmlTree loc =
        some (joinSpace (pySplit v))) ∧
    ((pySplit v).all (fun n => (parseFloat n).isSome) = false →
      (setValue env db loc v).2 = .err .floatOnly ∧
      (setValue env db loc v).1.xmlTree = db.xmlTree ∧
      getValue (setValue env db loc v).1.xmlTree loc = getValue db.xmlTree loc) := by
  obtain ⟨el, helx⟩ := Option.isSome_iff_exists.mp hel
  have hsv := setValue_eq_core env db loc v (.inputNumberList lo hi) el hschema helx
  constructor
  · intro hall
    rw [setValueCore] at hsv
    simp only [hall, if_true] at hsv
    rw [hsv]
    refine ⟨rfl, ?_⟩
    simp only [getValue, getAt_modifyAt, helx, Option.map_some, Option.bind_some]
    rfl
  · intro hall
    rw [setValueCore] at hsv
    simp only [hall, Bool.false_eq_true, if_false] at hsv
    rw [hsv]
    exact ⟨rfl, rfl, rfl⟩

/-- Witness for C5 amended: the list `"0.5 2.5"` has a token (`2.5`)
outside the declared bounds `[0, 1]` of the fixture list leaf, yet every
token parses, so the call succeeds and stores the normalized list. -/
theorem setValue_float_list_amended_witness :
    (witnessEnv.schemaOf [1] = some (.inputNumberList (some 0) (some 1)) ∧
      (getAt witnessDb.xmlTree [1]).isSome = true ∧
      (pySplit "0.5 2.5").all (fun n => (parseFloat n).isSome) = true) ∧
    ((setValue witnessEnv witnessDb [1] "0.5 2.5").2 = .completed ∧
      getValue (setValue witnessEnv witnessDb [1] "0.5 2.5").1.xmlTree [1] =
        some (joinSpace (pySplit "0.5 2.5"))) :=
  ⟨⟨rfl, rfl, by decide⟩,
    (setValue_float_list_amended witnessEnv witnessDb [1] "0.5 2.5"
      (some 0) (some 1) rfl rfl).1 (by decide)⟩

/-- C10.  The `_modified` flag is set to `true` exactly by a `setValue`
call that completes, reset to `false` by a completing `saveAs`, `save` or
`load`, and left untouched by every other operation — in particular by the
entity adders/removers, `setAttribute` and `setBulk` — and by every
erroring or raising call. -/
theorem modified_flag_transitions (env : Env) (db : DB) (op : DBOp) :
    ((applyOp env db op).1).modified =
      (match op, (applyOp env db op).2 with
       | .setValue _ _, .completed => true
       | .saveAs _, _ => false
       | .save, .completed => false
       | .load _ _, .completed => false
       | _, _ => db.modified) := by
  cases op <;>
    simp only [applyOp, setValue, setAttribute, setBulk, addMaterial,
      removeMaterial, addRegion, addCellZone, addBoundaryCondition, addMonitor,
      removeMonitor, saveAs, save, load] <;>
    (repeat' split) <;> first | rfl | simp_all

/-! ### Session lemmas -/

/-- Unfolding lemma for `runOps` on a cons, given the op's evaluation. -/
theorem runOps_cons (env : Env) (db : DB) (op : DBOp) (rest : List DBOp)
    (db' : DB) (out : Outcome) (hop : applyOp env db op = (db', out)) :
    runOps env db (op :: rest) = stepResult db' out (runOps env db' rest) := by
  cases out with
  | raised x => simp [runOps, hop, stepResult]
  | completed =>
    rcases h2 : runOps env db' rest with ⟨a, b, c⟩
    simp [runOps, hop, h2, stepResult]
  | retNat n =>
    rcases h2 : runOps env db' rest with ⟨a, b, c⟩
    simp [runOps, hop, h2, stepResult]
  | retStr sr =>
    rcases h2 : runOps env db' rest with ⟨a, b, c⟩
    simp [runOps, hop, h2, stepResult]
  | err e =>
    rcases h2 : runOps env db' rest with ⟨a, b, c⟩
    simp [runOps, hop, h2, stepResult]

/-- Frame of one operation over the session bookkeeping: no operation
touches the backup or the context flag, and `_lastError` is written (to the
returned error) exactly by an erroring `setValue`. -/
theorem applyOp_frame (env : Env) (db : DB) (op : DBOp) :
    ((applyOp env db op).1).backupTree = db.backupTree ∧
    ((applyOp env db op).1).inContext = db.inContext ∧
    ((applyOp env db op).1).lastError =
      (match op, (applyOp env db op).2 with
       | .setValue _ _, .err e => some e
       | _, _ => db.lastError) := by
  cases op <;>
    simp only [applyOp, setValue, setAttribute, setBulk, addMaterial,
      removeMaterial, addRegion, addCellZone, addBoundaryCondition, addMonitor,
      removeMonitor, saveAs, save, load] <;>
    (repeat' split) <;> first | exact ⟨rfl, rfl, rfl⟩ | simp_all

/-- An erroring operation does not change the tree (both erroring branches
of `setValue` and of `removeMaterial` return before mutating). -/
theorem applyOp_err_tree (env : Env) (db : DB) (op : DBOp) (e : Error)
    (h : (applyOp env db op).2 = .err e) :
    ((applyOp env db op).1).xmlTree = db.xmlTree := by
  cases op <;>
    simp only [applyOp, setValue, setAttribute, setBulk, addMaterial,
      removeMaterial, addRegion, addCellZone, addBoundaryCondition, addMonitor,
      removeMonitor, saveAs, save, load] at h ⊢ <;>
    (repeat' split at h) <;> first | rfl | simp_all

/-- The body of a session never touches the snapshot. -/
theorem runOps_backup (env : Env) :
    ∀ (ops : List DBOp) (db : DB),
      ((runOps env db ops).1).backupTree = db.backupTree := by
  intro ops
  induction ops with
  | nil => intro db; rfl
  | cons op rest ih =>
    intro db
    rcases hop : applyOp env db op with ⟨db', out⟩
    have hframe := (applyOp_frame env db op).1
    rw [hop] at hframe
    cases out with
    | raised x => simp only [runOps, hop]; exact hframe
    | completed =>
      rcases hrest : runOps env db' rest with ⟨db'', r, tr⟩
      simp only [runOps, hop, hrest]
      have := ih db'
      rw [hrest] at this
      exact this.trans hframe
    | retNat n =>
      rcases hrest : runOps env db' rest with ⟨db'', r, tr⟩
      simp only [runOps, hop, hrest]
      have := ih db'
      rw [hrest] at this
      exact this.trans hframe
    | retStr sr =>
      rcases hrest : runOps env db' rest with ⟨db'', r, tr⟩
      simp only [runOps, hop, hrest]
      have := ih db'
      rw [hrest] at this
      exact this.trans hframe
    | err e =>
      rcases hrest : runOps env db' rest with ⟨db'', r, tr⟩
      simp only [runOps, hop, hrest]
      have := ih db'
      rw [hrest] at this
      exact this.trans hframe

/-- The pending-error flag, once set, survives the rest of the body. -/
theorem runOps_lastError_mono (env : Env) :
    ∀ (ops : List DBOp) (db : DB), db.lastError.isSome →
      (((runOps env db ops).1).lastError).isSome := by
  intro ops
  induction ops with
  | nil => intro db h; exact h
  | cons op rest ih =>
    intro db h
    rcases hop : applyOp env db op with ⟨db', out⟩
    have hframe := (applyOp_frame env db op).2.2
    rw [hop] at hframe
    have hsome : db'.lastError.isSome := by
      rcases op <;> rcases out <;> simp_all
    cases out with
    | raised x => simp only [runOps, hop]; exact hsome
    | completed =>
      rcases hrest : runOps env db' rest with ⟨db'', r, tr⟩
      have := ih db' hsome
      rw [hrest] at this
      simpa [runOps, hop, hrest] using this
    | retNat n =>
      rcases hrest : runOps env db' rest with ⟨db'', r, tr⟩
      have := ih db' hsome
      rw [hrest] at this
      simpa [runOps, hop, hrest] using this
    | retStr sr =>
      rcases hrest : runOps env db' rest with ⟨db'', r, tr⟩
      have := ih db' hsome
      rw [hrest] at this
      simpa [runOps, hop, hrest] using this
    | err e =>
      rcases hrest : runOps env db' rest with ⟨db'', r, tr⟩
      have := ih db' hsome
      rw [hrest] at this
      simpa [runOps, hop, hrest] using this

/-- The pending-error flag after a session body is set exactly when some
executed `setValue` call returned a content-validation error. -/
theorem runOps_flag_iff (env : Env) :
    ∀ (ops : List DBOp) (db : DB), db.lastError = none →
      ((((runOps env db ops).1).lastError).isSome = true ↔
        ∃ loc v e, (DBOp.setValue loc v, Outcome.err e)
          ∈ ops.zip (runOps env db ops).2.2) := by
  intro ops
  induction ops with
  | nil => intro db h; simp [runOps, h]
  | cons op rest ih =>
    intro db h
    rcases hop : applyOp env db op with ⟨db', out⟩
    have hframe := (applyOp_frame env db op).2.2
    rw [hop] at hframe
    cases out with
    | raised x =>
      simp only [runOps, hop]
      have hsame : db'.lastError = none := by
        rcases op <;> simp_all
      simp [hsame, List.zip]
    | err e =>
      rcases hrest : runOps env db' rest with ⟨db'', r, tr⟩
      simp only [runOps, hop, hrest]
      cases op with
      | setValue loc v =>
        -- the flag is now set and stays set
        have hsome : db'.lastError.isSome := by rw [hframe]; rfl
        have := runOps_lastError_mono env rest db' hsome
        rw [hrest] at this
        simp only [this, true_iff]
        exact ⟨loc, v, e, by simp⟩
      | removeMaterial name =>
        have hsame : db'.lastError = none := by rw [hframe]; exact h
        have := ih db' hsame
        rw [hrest] at this
        simp only [this]
        constructor
        · rintro ⟨loc, v, e', hmem⟩
          exact ⟨loc, v, e', by simp [hmem]⟩
        · rintro ⟨loc, v, e', hmem⟩
          simp only [List.zip_cons_cons, List.mem_cons, Prod.mk.injEq] at hmem
          rcases hmem with ⟨h1, _⟩ | hmem
          · exact absurd h1 (by simp)
          · exact ⟨loc, v, e', hmem⟩
      | _ =>
        -- no other operation returns an error value
        exfalso
        revert hop
        simp only [applyOp, setValue, setAttribute, setBulk, addMaterial,
          removeMaterial, addRegion, addCellZone, addBoundaryCondition,
          addMonitor, removeMonitor, saveAs, save, load]
        (repeat' split) <;> intro hx <;> simp_all
    | completed =>
      rcases hrest : runOps env db' rest with ⟨db'', r, tr⟩
      simp only [runOps, hop, hrest]
      have hsame : db'.lastError = none := by
        rcases op <;> simp_all
      have := ih db' hsame
      rw [hrest] at this
      simp only [this]
      constructor
      · rintro ⟨loc, v, e', hmem⟩
        exact ⟨loc, v, e', by simp [hmem]⟩
      · rintro ⟨loc, v, e', hmem⟩
        simp only [List.zip_cons_cons, List.mem_cons, Prod.mk.injEq] at hmem
        rcases hmem with ⟨_, h2⟩ | hmem
        · exact absurd h2 (by simp)
        · exact ⟨loc, v, e', hmem⟩
    | retNat n =>
      rcases hrest : runOps env db' rest with ⟨db'', r, tr⟩
      simp only [runOps, hop, hrest]
      have hsame : db'.lastError = none := by
        rcases op <;> simp_all
      have := ih db' hsame
      rw [hrest] at this
      simp only [this]
      constructor
      · rintro ⟨loc, v, e', hmem⟩
        exact ⟨loc, v, e', by simp [hmem]⟩
      · rintro ⟨loc, v, e', hmem⟩
        simp only [List.zip_cons_cons, List.mem_cons, Prod.mk.injEq] at hmem
        rcases hmem with ⟨_, h2⟩ | hmem
        · exact absurd h2 (by simp)
        · exact ⟨loc, v, e', hmem⟩
    | retStr sr =>
      rcases hrest : runOps env db' rest with ⟨db'', r, tr⟩
      simp only [runOps, hop, hrest]
      have hsame : db'.lastError = none := by
        rcases op <;> simp_all
      have := ih db' hsame
      rw [hrest] at this
      simp only [this]
      constructor
      · rintro ⟨loc, v, e', hmem⟩
        exact ⟨loc, v, e', by simp [hmem]⟩
      · rintro ⟨loc, v, e', hmem⟩
        simp only [List.zip_cons_cons, List.mem_cons, Prod.mk.injEq] at hmem
        rcases hmem with ⟨_, h2⟩ | hmem
        · exact absurd h2 (by simp)
        · exact ⟨loc, v, e', hmem⟩

/-- Evaluation of `removeMaterial "air"` on the fixture document (sole
material): the call returns `Empty` and leaves the state untouched. -/
theorem removeMaterial_witness_eval (db : DB) (h : db.xmlTree = witnessDoc) :
    removeMaterial db "air" = (db, .err .empty) := by
  have h1 : firstTagged db.xmlTree "materials" = some witnessMaterialsEl := by
    rw [h]
    simp [firstTagged, descTagged, dos, dosList, witnessDoc, witnessMaterialsEl]
  have h4 : "1" ∉ referencedMidsQueried db.xmlTree := by
    rw [h]
    simp [referencedMidsQueried, childStep, childrenTagged, descTagged, dos,
      dosList, witnessDoc]
  have h5 : (materialsOf db.xmlTree).length = 1 := by
    rw [h]
    simp [materialsOf, childStep, childrenTagged, descTagged, dos, dosList,
      witnessDoc]
  rw [removeMaterial, h1]
  simp [witnessMaterialsEl, childrenTagged, hasNameText, getAttr, h4, h5]

/-- Counterexample to C2 as stated: in a session, `removeMaterial` fails
content validation (`Empty`, the fixture's sole material) and no corrective
fix applies, yet the session commits — the later `setValue` edit survives
exit and the final tree differs from the entry snapshot, because
`removeMaterial` never sets the pending-error flag. -/
theorem session_atomicity_counterexample :
    (runOps witnessEnv (enterSession witnessDb)
        [.removeMaterial "air", .setValue [0] "42"]).2.2 =
      [.err .empty, .completed] ∧
    getValue witnessDb.xmlTree [0] = some "5" ∧
    getValue (runSession witnessEnv witnessDb
        [.removeMaterial "air", .setValue [0] "42"]).xmlTree [0] = some "42" ∧
    (runSession witnessEnv witnessDb
        [.removeMaterial "air", .setValue [0] "42"]).xmlTree ≠ witnessDb.xmlTree := by
  have hrm : applyOp witnessEnv (enterSession witnessDb) (.removeMaterial "air")
      = (enterSession witnessDb, .err .empty) := by
    simpa [applyOp] using removeMaterial_witness_eval (enterSession witnessDb) rfl
  have htr : (runOps witnessEnv (enterSession witnessDb)
      [.removeMaterial "air", .setValue [0] "42"]).2.2 = [.err .empty, .completed] := by
    rw [runOps_cons _ _ _ _ _ _ hrm]
    decide
  have h42 : getValue (runSession witnessEnv witnessDb
      [.removeMaterial "air", .setValue [0] "42"]).xmlTree [0] = some "42" := by
    rw [runSession, runOps_cons _ _ _ _ _ _ hrm]
    decide
  refine ⟨htr, by decide, h42, ?_⟩
  intro hEq
  rw [hEq] at h42
  exact absurd h42 (by decide)

/-- C2 amended.  A session rolls back to the entry snapshot exactly when
the body raised or the pending-error flag is set at exit; otherwise every
edit of the body is visible (the final tree is the body's final tree).
The flag is set exactly when some executed `setValue` returned a
content-validation error — `removeMaterial`'s `Referenced`/`Empty` returns
do not set it, so they do not cause rollback. -/
theorem session_atomicity_amended (env : Env) (db : DB) (ops : List DBOp) :
    ((runSession env db ops).xmlTree =
      if ((runOps env (enterSession db) ops).1).lastError.isSome
          || (runOps env (enterSession db) ops).2.1
        then db.xmlTree
        else ((runOps env (enterSession db) ops).1).xmlTree) ∧
    ((((runOps env (enterSession db) ops).1).lastError).isSome = true ↔
      ∃ loc v e, (DBOp.setValue loc v, Outcome.err e)
        ∈ ops.zip (runOps env (enterSession db) ops).2.2) := by
  rcases h : runOps env (enterSession db) ops with ⟨db', raised, trace⟩
  have hbackup : db'.backupTree = some db.xmlTree := by
    have := runOps_backup env ops (enterSession db)
    rw [h] at this
    exact this
  constructor
  · simp only [runSession, h, exitSession]
    rw [hbackup]
    simp
  · have hflag := runOps_flag_iff env ops (enterSession db) rfl
    rw [h] at hflag
    simpa [h] using hflag

/-- Counterexample to C6 as stated: the first `setValue` fails
(`IntegerOnly`), the second corrects the same path with a valid value, so
the body's final state is fully valid — yet exit still rolls the tree back
to the snapshot, because a successful call never clears `_lastError`. -/
theorem corrective_fix_counterexample :
    (runOps witnessEnv (enterSession witnessDb)
        [.setValue [0] "abc", .setValue [0] "42"]).2.2 =
      [.err .integerOnly, .completed] ∧
    getValue ((runOps witnessEnv (enterSession witnessDb)
        [.setValue [0] "abc", .setValue [0] "42"]).1).xmlTree [0] = some "42" ∧
    (runSession witnessEnv witnessDb
        [.setValue [0] "abc", .setValue [0] "42"]).xmlTree = witnessDb.xmlTree :=
  ⟨by decide, by decide, rfl⟩

/-- C6 amended.  Once any `setValue` call in a session returns a
content-validation error, the session is marked for rollback for good:
no later call clears the pending-error flag, and the tree after exit is
the entry snapshot even when later calls left the session fully valid. -/
theorem session_error_persists (env : Env) (db : DB) (ops : List DBOp)
    (herr : ∃ loc v e, (DBOp.setValue loc v, Outcome.err e)
        ∈ ops.zip (runOps env (enterSession db) ops).2.2) :
    (runSession env db ops).xmlTree = db.xmlTree := by
  rcases h : runOps env (enterSession db) ops with ⟨db', raised, trace⟩
  have hflag : db'.lastError.isSome := by
    have hiff := runOps_flag_iff env ops (enterSession db) rfl
    rw [h] at hiff
    rw [h] at herr
    exact hiff.mpr herr
  have hbackup : db'.backupTree = some db.xmlTree := by
    have := runOps_backup env ops (enterSession db)
    rw [h] at this
    exact this
  simp only [runSession, h, exitSession]
  simp [hflag, hbackup]

/-- Witness for C6 amended: a session whose only call is a failing
`setValue`; the tree after exit equals the entry tree. -/
theorem session_error_persists_witness :
    (∃ loc v e, (DBOp.setValue loc v, Outcome.err e)
        ∈ [DBOp.setValue [0] "abc"].zip
          (runOps witnessEnv (enterSession witnessDb)
            [DBOp.setValue [0] "abc"]).2.2) ∧
    (runSession witnessEnv witnessDb [DBOp.setValue [0] "abc"]).xmlTree =
      witnessDb.xmlTree :=
  ⟨⟨[0], "abc", .integerOnly, by exact List.mem_cons_self _ _⟩,
    session_error_persists witnessEnv witnessDb [DBOp.setValue [0] "abc"]
      ⟨[0], "abc", .integerOnly, by exact List.mem_cons_self _ _⟩⟩

/-- Counterexample to C7 as stated: `removeMaterial` returns the
content-validation error `Empty` inside a session, yet the pending-error
flag stays clear — only `setValue` sets it. -/
theorem pending_flag_counterexample :
    (applyOp witnessEnv (enterSession witnessDb) (.removeMaterial "air")).2 =
      .err .empty ∧
    ((applyOp witnessEnv (enterSession witnessDb)
        (.removeMaterial "air")).1).lastError = none := by
  have hrm : applyOp witnessEnv (enterSession witnessDb) (.removeMaterial "air")
      = (enterSession witnessDb, .err .empty) := by
    simpa [applyOp] using removeMaterial_witness_eval (enterSession witnessDb) rfl
  rw [hrm]
  exact ⟨rfl, rfl⟩

/-- C7 amended.  A `setValue` returning a content-validation error sets the
pending-error flag to that error; a `removeMaterial` returning
`Referenced`/`Empty` leaves the flag untouched; and no error-returning call
changes the tree — in particular it does not undo edits made earlier in
the session. -/
theorem content_error_effects (env : Env) (db : DB) (op : DBOp) :
    (∀ loc v e, op = .setValue loc v → (applyOp env db op).2 = .err e →
      ((applyOp env db op).1).lastError = some e ∧
      ((applyOp env db op).1).xmlTree = db.xmlTree) ∧
    (∀ name e, op = .removeMaterial name → (applyOp env db op).2 = .err e →
      ((applyOp env db op).1).lastError = db.lastError ∧
      ((applyOp env db op).1).xmlTree = db.xmlTree) ∧
    (∀ e, (applyOp env db op).2 = .err e →
      ((applyOp env db op).1).xmlTree = db.xmlTree) := by
  refine ⟨?_, ?_, fun e he => applyOp_err_tree env db op e he⟩
  · rintro loc v e rfl herr
    have h3 := (applyOp_frame env db (.setValue loc v)).2.2
    rw [herr] at h3
    exact ⟨h3, applyOp_err_tree env db _ e herr⟩
  · rintro name e rfl herr
    have h3 := (applyOp_frame env db (.removeMaterial name)).2.2
    rw [herr] at h3
    exact ⟨h3, applyOp_err_tree env db _ e herr⟩

/-- Witness for C7 amended: a failing `setValue` (`"abc"` on the integer
leaf) sets the flag to `IntegerOnly` and leaves the tree unchanged. -/
theorem content_error_effects_witness :
    ((applyOp witnessEnv witnessDb (.setValue [0] "abc")).2 =
      .err .integerOnly) ∧
    ((applyOp witnessEnv witnessDb (.setValue [0] "abc")).1).lastError =
      some .integerOnly ∧
    ((applyOp witnessEnv witnessDb (.setValue [0] "abc")).1).xmlTree =
      witnessDb.xmlTree :=
  ⟨by decide,
    (content_error_effects witnessEnv witnessDb (.setValue [0] "abc")).1
      [0] "abc" .integerOnly rfl (by decide)⟩

/-! ### Id-allocation lemmas and C4 -/

theorem find?_range'_some {p : Nat → Bool} :
    ∀ (n s i : Nat),
      ((List.range' s n).find? p = some i ↔
        (s ≤ i ∧ i < s + n ∧ p i = true ∧ ∀ j, s ≤ j → j < i → p j = false)) := by
  intro n
  induction n with
  | zero =>
    intro s i
    simp only [List.range'_zero, List.find?_nil]
    constructor
    · intro h; exact Option.noConfusion h
    · rintro ⟨h1, h2, _⟩; omega
  | succ n ih =>
    intro s i
    rw [List.range'_succ]
    cases hp : p s with
    | true =>
      rw [List.find?_cons_of_pos _ hp]
      constructor
      · intro h
        obtain rfl : s = i := Option.some.injEq _ _ ▸ h
        exact ⟨Nat.le_refl s, by omega, hp, fun j h1 h2 => by omega⟩
      · rintro ⟨h1, h2, h3, h4⟩
        by_cases hsi : s = i
        · rw [hsi]
        · have := h4 s (Nat.le_refl s) (by omega)
          rw [hp] at this
          exact Bool.noConfusion this
    | false =>
      rw [List.find?_cons_of_neg _ (by simp [hp])]
      rw [ih (s + 1) i]
      constructor
      · rintro ⟨h1, h2, h3, h4⟩
        refine ⟨by omega, by omega, h3, fun j hj1 hj2 => ?_⟩
        by_cases hjs : j = s
        · rw [hjs]; exact hp
        · exact h4 j (by omega) hj2
      · rintro ⟨h1, h2, h3, h4⟩
        have hsi : s ≠ i := by
          intro hsi
          rw [hsi] at hp
          rw [h3] at hp
          exact Bool.noConfusion hp
        exact ⟨by omega, by omega, h3, fun j hj1 hj2 => h4 j (by omega) hj2⟩

/-- Characterization of the allocation loop: the returned id is the least
string-free index in `[1, maxIndex - 1]` (Python `range(1, maxIndex)`). -/
theorem allocateId_some_iff (maxIndex : Nat) (used : List String) (i : Nat) :
    allocateId maxIndex used = some i ↔
      (1 ≤ i ∧ i ≤ maxIndex - 1 ∧ used.contains (toString i) = false ∧
        ∀ j, 1 ≤ j → j < i → used.contains (toString j) = true) := by
  rw [allocateId, find?_range'_some]
  constructor
  · rintro ⟨h1, h2, h3, h4⟩
    refine ⟨h1, by omega, by simpa using h3, fun j hj1 hj2 => ?_⟩
    have := h4 j hj1 hj2
    simpa using this
  · rintro ⟨h1, h2, h3, h4⟩
    refine ⟨h1, by omega, by simpa using h3, fun j hj1 hj2 => ?_⟩
    simpa using h4 j hj1 hj2

/-- The loop exhausts (Python `OverflowError`) exactly when every index in
`[1, maxIndex - 1]` is in use; the index `maxIndex` itself is never probed. -/
theorem allocateId_none_iff (maxIndex : Nat) (used : List String) :
    allocateId maxIndex used = none ↔
      ∀ j, 1 ≤ j → j ≤ maxIndex - 1 → used.contains (toString j) = true := by
  rw [allocateId, List.find?_eq_none]
  constructor
  · intro h j h1 h2
    have := h j (by rw [List.mem_range'_1]; omega)
    simpa using this
  · intro h x hx
    rw [List.mem_range'_1] at hx
    simpa using h x hx.1 (by omega)

set_option maxRecDepth 4000 in
/-- Counterexample to C4 as stated: with ids `1 .. 999` all in use and the
materials ceiling `MATERIAL_MAX_INDEX = 1000`, the smallest id not in use
within `[1, 1000]` is `1000` and it is free, yet the allocation loop of
`addMaterial` exhausts (`OverflowError`, the spec's `Capacity`) because
Python `range(1, 1000)` never probes `1000`. -/
theorem allocateId_ceiling_counterexample :
    MATERIAL_MAX_INDEX = 1000 ∧
    ((List.range' 1 999).map toString).contains (toString 1000) = false ∧
    allocateId MATERIAL_MAX_INDEX ((List.range' 1 999).map toString) = none := by
  refine ⟨rfl, by decide, ?_⟩
  rw [allocateId_none_iff]
  intro j h1 h2
  have hj : j ∈ List.range' 1 999 := by
    rw [List.mem_range'_1]
    constructor
    · exact h1
    · simp only [MATERIAL_MAX_INDEX] at h2
      omega
  have : toString j ∈ (List.range' 1 999).map toString := List.mem_map_of_mem _ hj
  exact List.elem_eq_true_of_mem this

/-! ### Preorder-filter lemmas for the descendant queries -/

/-- Forest version of `descTagged`. -/
def descTaggedList (cs : List Element) (t : String) : List Element :=
  (dosList cs).filter (fun c => c.tag = t)

theorem dos_unfold (e : Element) : dos e = e :: dosList e.children := by
  rw [dos]

theorem dosList_nil : dosList [] = [] := by rw [dosList]

theorem dosList_cons (c : Element) (cs : List Element) :
    dosList (c :: cs) = dos c ++ dosList cs := by rw [dosList]

theorem descTagged_unfold (e : Element) (t : String) :
    descTagged e t =
      (if e.tag = t then [e] else []) ++ descTaggedList e.children t := by
  rw [descTagged, descTaggedList, dos_unfold, List.filter_cons]
  by_cases h : e.tag = t <;> simp [h]

theorem descTaggedList_nil (t : String) : descTaggedList [] t = [] := by
  rw [descTaggedList, dosList_nil, List.filter_nil]

theorem descTaggedList_cons (c : Element) (cs : List Element) (t : String) :
    descTaggedList (c :: cs) t = descTagged c t ++ descTaggedList cs t := by
  rw [descTaggedList, dosList_cons, List.filter_append, descTagged, descTaggedList]

theorem descTaggedList_append (cs ds : List Element) (t : String) :
    descTaggedList (cs ++ ds) t = descTaggedList cs t ++ descTaggedList ds t := by
  induction cs with
  | nil => simp [descTaggedList_nil]
  | cons c cs ih => simp [descTaggedList_cons, ih]

theorem modifyFirstTagged_eq_match (t : String) (f : Element → Element)
    (e : Element) (h : e.tag = t) :
    modifyFirstTagged t f e = some (f e) := by
  rw [modifyFirstTagged, if_pos h]

theorem modifyFirstTagged_eq_list (t : String) (f : Element → Element)
    (e : Element) (h : ¬ e.tag = t) :
    modifyFirstTagged t f e =
      (modifyFirstInList t f e.children).map
        (fun cs => Element.mk e.tag e.attrs cs e.text) := by
  rw [modifyFirstTagged, if_neg h]
  cases modifyFirstInList t f e.children <;> rfl

theorem modifyFirstInList_nil (t : String) (f : Element → Element) :
    modifyFirstInList t f [] = none := by rw [modifyFirstInList]

theorem modifyFirstInList_cons_some (t : String) (f : Element → Element)
    (hd : Element) (tl : List Element) (y : Element)
    (h : modifyFirstTagged t f hd = some y) :
    modifyFirstInList t f (hd :: tl) = some (y :: tl) := by
  rw [modifyFirstInList, h]

theorem modifyFirstInList_cons_none (t : String) (f : Element → Element)
    (hd : Element) (tl : List Element) (h : modifyFirstTagged t f hd = none) :
    modifyFirstInList t f (hd :: tl) =
      (modifyFirstInList t f tl).map (fun cs' => hd :: cs') := by
  rw [modifyFirstInList, h]

theorem containsTag_unfold (t : String) (e : Element) :
    containsTag t e = (decide (e.tag = t) || containsTagList t e.children) := by
  rw [containsTag]

theorem containsTagList_nil (t : String) : containsTagList t [] = false := by
  rw [containsTagList]

theorem containsTagList_cons (t : String) (c : Element) (cs : List Element) :
    containsTagList t (c :: cs) = (containsTag t c || containsTagList t cs) := by
  rw [containsTagList]

/-- List form of `descTagged_eq_nil_of_not_contains`. -/
theorem descTaggedList_eq_nil_aux (t : String) (cs : List Element)
    (ih : ∀ y ∈ cs, containsTag t y = false → descTagged y t = [])
    (h : containsTagList t cs = false) : descTaggedList cs t = [] := by
  induction cs with
  | nil => exact descTaggedList_nil t
  | cons hd tl ihl =>
    rw [containsTagList_cons] at h
    simp only [Bool.or_eq_false_iff] at h
    rw [descTaggedList_cons, ih hd (by simp) h.1,
      ihl (fun y hy hc => ih y (by simp [hy]) hc) h.2]
    rfl

/-- A subtree without the tag contributes nothing to the query. -/
theorem descTagged_eq_nil_of_not_contains (t : String) :
    ∀ e : Element, containsTag t e = false → descTagged e t = [] := by
  intro e
  induction e using Element.indOn with
  | step tg a c x ih =>
    intro h
    rw [containsTag_unfold] at h
    simp only [Element.tag_mk, Element.children_mk, Bool.or_eq_false_iff,
      decide_eq_false_iff_not] at h
    rw [descTagged_unfold]
    simp only [Element.tag_mk, Element.children_mk]
    rw [if_neg h.1, descTaggedList_eq_nil_aux t c (fun y hy hc => ih y hy hc) h.2]
    rfl

/-- List form of `modifyFirstTagged_none_iff`. -/
theorem modifyFirstInList_none_iff_aux (t : String) (f : Element → Element)
    (cs : List Element)
    (ih : ∀ y ∈ cs, (modifyFirstTagged t f y = none ↔ descTagged y t = [])) :
    modifyFirstInList t f cs = none ↔ descTaggedList cs t = [] := by
  induction cs with
  | nil => simp [modifyFirstInList_nil, descTaggedList_nil]
  | cons hd tl ihl =>
    have hhd := ih hd (by simp)
    have htl := ihl (fun y hy => ih y (by simp [hy]))
    rw [descTaggedList_cons, List.append_eq_nil]
    cases hmt : modifyFirstTagged t f hd with
    | some y =>
      rw [modifyFirstInList_cons_some t f hd tl y hmt]
      constructor
      · intro hx; exact Option.noConfusion hx
      · rintro ⟨h1, _⟩
        rw [← hhd, hmt] at h1
        exact Option.noConfusion h1
    | none =>
      rw [modifyFirstInList_cons_none t f hd tl hmt]
      have hnil := hhd.1 hmt
      cases hml : modifyFirstInList t f tl with
      | some z =>
        constructor
        · intro hx; exact Option.noConfusion hx
        · rintro ⟨_, h2⟩
          rw [← htl, hml] at h2
          exact Option.noConfusion h2
      | none =>
        simp [hnil, htl.1 hml]

/-- `modifyFirstTagged` fails exactly on trees without the tag. -/
theorem modifyFirstTagged_none_iff (t : String) (f : Element → Element) :
    ∀ e : Element, modifyFirstTagged t f e = none ↔ descTagged e t = [] := by
  intro e
  induction e using Element.indOn with
  | step tg a c x ih =>
    rw [descTagged_unfold]
    simp only [Element.tag_mk, Element.children_mk]
    by_cases h : tg = t
    · rw [modifyFirstTagged_eq_match t f _ (by simpa using h), if_pos h]
      constructor
      · intro hx; exact Option.noConfusion hx
      · intro hx; exact absurd hx (by simp)
    · rw [modifyFirstTagged_eq_list t f _ (by simpa using h), if_neg h,
        List.nil_append]
      simp only [Element.tag_mk, Element.attrs_mk, Element.children_mk,
        Element.text_mk]
      have haux := modifyFirstInList_none_iff_aux t f c ih
      cases hml : modifyFirstInList t f c with
      | some z =>
        constructor
        · intro hx; exact Option.noConfusion hx
        · intro hx
          rw [← haux, hml] at hx
          exact Option.noConfusion hx
      | none =>
        simp [haux.1 hml]

/-- List form of `modifyFirstTagged_unique`. -/
theorem modifyFirstInList_unique_aux (t : String) (f : Element → Element)
    (cs : List Element)
    (ih : ∀ y ∈ cs, ∀ p y', descTagged y t = [p] →
      modifyFirstTagged t f y = some y' → descTagged y' t = descTagged (f p) t) :
    ∀ p cs', descTaggedList cs t = [p] → modifyFirstInList t f cs = some cs' →
      descTaggedList cs' t = descTagged (f p) t := by
  induction cs with
  | nil =>
    intro p cs' hp hm
    rw [modifyFirstInList_nil] at hm
    exact Option.noConfusion hm
  | cons hd tl ihl =>
    intro p cs' hp hm
    rw [descTaggedList_cons] at hp
    cases hhd : descTagged hd t with
    | nil =>
      rw [hhd, List.nil_append] at hp
      have hmt : modifyFirstTagged t f hd = none :=
        (modifyFirstTagged_none_iff t f hd).2 hhd
      rw [modifyFirstInList_cons_none t f hd tl hmt] at hm
      cases hml : modifyFirstInList t f tl with
      | none => rw [hml] at hm; exact Option.noConfusion hm
      | some z =>
        rw [hml] at hm
        obtain rfl : hd :: z = cs' := Option.some.inj hm
        rw [descTaggedList_cons, hhd, List.nil_append]
        exact ihl (fun y hy => ih y (by simp [hy])) p z hp hml
    | cons q qs =>
      rw [hhd, List.cons_append] at hp
      have hq : q = p ∧ qs = [] ∧ descTaggedList tl t = [] := by
        rw [List.cons.injEq] at hp
        obtain ⟨hqp, happ⟩ := hp
        rw [List.append_eq_nil] at happ
        exact ⟨hqp, happ.1, happ.2⟩
      obtain ⟨rfl, rfl, htlnil⟩ := hq
      cases hmt : modifyFirstTagged t f hd with
      | none =>
        rw [(modifyFirstTagged_none_iff t f hd).1 hmt] at hhd
        exact List.noConfusion hhd
      | some y =>
        rw [modifyFirstInList_cons_some t f hd tl y hmt] at hm
        obtain rfl : y :: tl = cs' := Option.some.inj hm
        rw [descTaggedList_cons, htlnil, List.append_nil]
        exact ih hd (by simp) q y hhd hmt

/-- Replacement under uniqueness: when `p` is the only `t`-tagged node of
the tree, modifying it rewrites the `t`-query to that of the new subtree. -/
theorem modifyFirstTagged_unique (t : String) (f : Element → Element) :
    ∀ e p e', descTagged e t = [p] → modifyFirstTagged t f e = some e' →
      descTagged e' t = descTagged (f p) t := by
  intro e
  induction e using Element.indOn with
  | step tg a c x ih =>
    intro p e' hp hm
    by_cases h : tg = t
    · rw [modifyFirstTagged_eq_match t f _ (by simpa using h)] at hm
      obtain rfl : f (Element.mk tg a c x) = e' := Option.some.inj hm
      rw [descTagged_unfold] at hp
      simp only [Element.tag_mk, Element.children_mk, if_pos h,
        List.cons_append, List.nil_append, List.cons.injEq] at hp
      obtain ⟨rfl, -⟩ := hp
      rfl
    · rw [modifyFirstTagged_eq_list t f _ (by simpa using h)] at hm
      simp only [Element.tag_mk, Element.attrs_mk, Element.children_mk,
        Element.text_mk] at hm
      rw [descTagged_unfold] at hp
      simp only [Element.tag_mk, Element.children_mk, if_neg h,
        List.nil_append] at hp
      cases hml : modifyFirstInList t f c with
      | none => rw [hml] at hm; exact Option.noConfusion hm
      | some cs' =>
        rw [hml] at hm
        obtain rfl : Element.mk tg a cs' x = e' := Option.some.inj hm
        rw [descTagged_unfold]
        simp only [Element.tag_mk, Element.children_mk, if_neg h,
          List.nil_append]
        exact modifyFirstInList_unique_aux t f c ih p cs' hp hml

theorem descTaggedList_eq_nil_of_not_contains (t : String) (cs : List Element)
    (h : containsTagList t cs = false) : descTaggedList cs t = [] :=
  descTaggedList_eq_nil_aux t cs
    (fun y _ => descTagged_eq_nil_of_not_contains t y) h

theorem containsTagList_append (t : String) (l1 l2 : List Element) :
    containsTagList t (l1 ++ l2) = (containsTagList t l1 || containsTagList t l2) := by
  induction l1 with
  | nil => simp [containsTagList_nil]
  | cons c cs ih => simp [containsTagList_cons, ih, Bool.or_assoc]

/-- Splitting a list at the first element satisfying a predicate, as found
by `filter`-then-`head?`. -/
theorem filter_head_split (pred : Element → Bool) :
    ∀ (l : List Element) (m : Element), (l.filter pred).head? = some m →
      ∃ l1 l2, l = l1 ++ m :: l2 ∧ (∀ x ∈ l1, pred x = false) ∧ pred m = true := by
  intro l
  induction l with
  | nil => intro m h; simp at h
  | cons c cs ih =>
    intro m h
    cases hc : pred c with
    | true =>
      rw [List.filter_cons_of_pos hc] at h
      obtain rfl : c = m := by simpa using h
      exact ⟨[], cs, rfl, by simp, hc⟩
    | false =>
      rw [List.filter_cons_of_neg (by simp [hc])] at h
      obtain ⟨l1, l2, rfl, h1, h2⟩ := ih m h
      exact ⟨c :: l1, l2, rfl, by simpa [hc] using h1, h2⟩

/-- `removeFirstChild` removes exactly the first matching element. -/
theorem removeFirstChild_append (pred : Element → Bool) :
    ∀ (l1 : List Element) (m : Element) (l2 : List Element),
      (∀ x ∈ l1, pred x = false) → pred m = true →
      removeFirstChild pred (l1 ++ m :: l2) = l1 ++ l2 := by
  intro l1
  induction l1 with
  | nil =>
    intro m l2 h1 hm
    rw [List.nil_append, removeFirstChild, if_pos hm, List.nil_append]
  | cons c cs ih =>
    intro m l2 h1 hm
    rw [List.cons_append, removeFirstChild, if_neg (by simp [h1 c (by simp)]),
      ih m l2 (fun x hx => h1 x (by simp [hx])) hm, List.cons_append]

/-- The id handed out by `addMaterial` comes from the allocation loop over
the used-mid list, and the new material carries that id: the used-mid list
grows by exactly `toString i` (under a well-formed single materials
section; the new material subtree introduces no nested section). -/
theorem addMaterial_usedMids (env : Env) (db : DB) (name : String) (db' : DB)
    (i : Nat) (p : Element)
    (hp : descTagged db.xmlTree "materials" = [p])
    (hpc : containsTagList "materials" p.children = false)
    (hm : containsTag "materials" (mkMaterial env i name) = false)
    (h : addMaterial env db name = (db', Outcome.retNat i)) :
    allocateId MATERIAL_MAX_INDEX (usedMids db.xmlTree) = some i ∧
    usedMids db'.xmlTree = usedMids db.xmlTree ++ [toString i] := by
  rw [addMaterial] at h
  split at h
  · exact absurd (congrArg Prod.snd h) (by simp)
  split at h
  · exact absurd (congrArg Prod.snd h) (by simp)
  split at h
  · exact absurd (congrArg Prod.snd h) (by simp)
  rename_i idx halloc
  split at h
  · exact absurd (congrArg Prod.snd h) (by simp)
  rename_i tree' hmod
  have hi : idx = i := by simpa using congrArg Prod.snd h
  rw [hi] at halloc hmod
  have hdb : db' = { db with xmlTree := tree' } := (congrArg Prod.fst h).symm
  subst hdb
  refine ⟨halloc, ?_⟩
  have hptag : p.tag = "materials" := by
    have hmem : p ∈ descTagged db.xmlTree "materials" := by rw [hp]; simp
    have := List.of_mem_filter hmem
    simpa using this
  have hrepl := modifyFirstTagged_unique "materials" _ db.xmlTree p tree' hp hmod
  have hnew : descTagged (appendChild p (mkMaterial env i name)) "materials" =
      [appendChild p (mkMaterial env i name)] := by
    rw [descTagged_unfold]
    rw [if_pos (by simp [appendChild, hptag])]
    have hnil : descTaggedList (appendChild p (mkMaterial env i name)).children
        "materials" = [] := by
      apply descTaggedList_eq_nil_of_not_contains
      rw [appendChild]
      simp only [Element.children_mk]
      rw [containsTagList_append, containsTagList_cons, containsTagList_nil, hpc, hm]
      rfl
    rw [hnil, List.append_nil]
  have hmids : ∀ root q, descTagged root "materials" = [q] →
      usedMids root = (q.children.filter
        (fun c => c.tag = "material")).filterMap (fun e => getAttr e "mid") := by
    intro root q hq
    rw [usedMids, materialsOf, hq, childStep]
    simp [childrenTagged]
  rw [hmids db.xmlTree p hp, hmids tree' _ (hrepl.trans hnew)]
  rw [appendChild]
  simp only [Element.children_mk]
  rw [List.filter_append, List.filterMap_append,
    List.filter_cons_of_pos (by simp [mkMaterial]), List.filter_nil]
  simp [mkMaterial, getAttr]

/-- A completing `removeMaterial` removes exactly one entry from the
used-mid list (under a well-formed single materials section): the freed id
is gone afterwards when the mids were distinct. -/
theorem removeMaterial_usedMids (db : DB) (name : String) (db' : DB) (p : Element)
    (hp : descTagged db.xmlTree "materials" = [p])
    (hpc : containsTagList "materials" p.children = false)
    (hnd : (usedMids db.xmlTree).Nodup)
    (h : removeMaterial db name = (db', Outcome.completed)) :
    ∃ mid A B, usedMids db.xmlTree = A ++ mid :: B ∧
      usedMids db'.xmlTree = A ++ B ∧ mid ∉ usedMids db'.xmlTree := by
  rw [removeMaterial] at h
  split at h
  · exact absurd (congrArg Prod.snd h) (by simp)
  rename_i parent hparent
  have hpar : parent = p := by
    have hfirst : firstTagged db.xmlTree "materials" = some p := by
      rw [firstTagged, hp]
      rfl
    rw [hfirst] at hparent
    exact (Option.some.inj hparent).symm
  subst parent
  split at h
  · exact absurd (congrArg Prod.snd h) (by simp)
  rename_i material hmat
  split at h
  · exact absurd (congrArg Prod.snd h) (by simp)
  rename_i mid hmid
  split at h
  · exact absurd (congrArg Prod.snd h) (by simp)
  split at h
  · exact absurd (congrArg Prod.snd h) (by simp)
  split at h
  · exact absurd (congrArg Prod.snd h) (by simp)
  rename_i tree' hmod
  have hdb : db' = { db with xmlTree := tree' } := (congrArg Prod.fst h).symm
  subst hdb
  have hptag : p.tag = "materials" := by
    have hmem : p ∈ descTagged db.xmlTree "materials" := by rw [hp]; simp
    have := List.of_mem_filter hmem
    simpa using this
  rw [childrenTagged] at hmat
  have hmat2 : ((p.children.filter
      (fun c => hasNameText name c && decide (c.tag = "material"))).head?) =
      some material := by
    rw [← List.filter_filter]
    exact hmat
  obtain ⟨l1, l2, hsplit, hl1, hpm⟩ := filter_head_split _ _ _ hmat2
  have hl1x : ∀ x ∈ l1,
      (decide (x.tag = "material") && hasNameText name x) = false := by
    intro x hx
    rw [Bool.and_comm]
    exact hl1 x hx
  have hpmx : (decide (material.tag = "material") && hasNameText name material)
      = true := by
    rw [Bool.and_comm]
    exact hpm
  have hrem : removeFirstChild
      (fun c => c.tag = "material" && hasNameText name c) p.children =
      l1 ++ l2 := by
    rw [hsplit]
    exact removeFirstChild_append _ l1 material l2 hl1x hpmx
  have hrepl := modifyFirstTagged_unique "materials" _ db.xmlTree p tree' hp hmod
  have hctl : containsTagList "materials" (l1 ++ l2) = false := by
    have hc := hpc
    rw [hsplit, containsTagList_append, containsTagList_cons] at hc
    rcases Bool.or_eq_false_iff.mp hc with ⟨hA, hBC⟩
    rcases Bool.or_eq_false_iff.mp hBC with ⟨-, hB⟩
    rw [containsTagList_append, hA, hB]
    rfl
  have hnewq : descTagged (Element.mk p.tag p.attrs
      (removeFirstChild (fun c => c.tag = "material" && hasNameText name c)
        p.children) p.text) "materials" =
      [Element.mk p.tag p.attrs
        (removeFirstChild (fun c => c.tag = "material" && hasNameText name c)
          p.children) p.text] := by
    rw [descTagged_unfold]
    rw [if_pos (by simpa using hptag)]
    have hnil : descTaggedList (Element.mk p.tag p.attrs
        (removeFirstChild (fun c => c.tag = "material" && hasNameText name c)
          p.children) p.text).children "materials" = [] := by
      apply descTaggedList_eq_nil_of_not_contains
      simp only [Element.children_mk, hrem]
      exact hctl
    rw [hnil, List.append_nil]
  have hmattag : material.tag = "material" := by
    have := hpm
    simp only [Bool.and_eq_true, decide_eq_true_eq] at this
    exact this.2
  have husedOld : usedMids db.xmlTree =
      ((l1.filter (fun c => c.tag = "material")).filterMap
        (fun e => getAttr e "mid")) ++ mid ::
      ((l2.filter (fun c => c.tag = "material")).filterMap
        (fun e => getAttr e "mid")) := by
    rw [usedMids, materialsOf, hp, childStep]
    simp only [List.flatMap_cons, List.flatMap_nil, List.append_nil,
      childrenTagged]
    rw [hsplit, List.filter_append,
      List.filter_cons_of_pos (by simp [hmattag]), List.filterMap_append]
    simp [hmid]
  have husedNew : usedMids tree' =
      ((l1.filter (fun c => c.tag = "material")).filterMap
        (fun e => getAttr e "mid")) ++
      ((l2.filter (fun c => c.tag = "material")).filterMap
        (fun e => getAttr e "mid")) := by
    rw [usedMids, materialsOf, hrepl.trans hnewq, childStep]
    simp only [List.flatMap_cons, List.flatMap_nil, List.append_nil,
      childrenTagged, Element.children_mk, hrem]
    rw [List.filter_append, List.filterMap_append]
  refine ⟨mid, _, _, husedOld, husedNew, ?_⟩
  rw [husedOld] at hnd
  have h1 := (List.nodup_append.mp hnd).2.1
  have h2 := (List.nodup_append.mp hnd).2.2
  rw [husedNew]
  intro hmem
  rcases List.mem_append.mp hmem with hA | hB
  · exact h2 hA (by simp)
  · exact (List.nodup_cons.mp h1).1 hB

theorem addMaterial_id (env : Env) (db : DB) (name : String) (db' : DB) (i : Nat)
    (h : addMaterial env db name = (db', Outcome.retNat i)) :
    allocateId MATERIAL_MAX_INDEX (usedMids db.xmlTree) = some i := by
  rw [addMaterial] at h
  split at h
  · exact absurd (congrArg Prod.snd h) (by simp)
  split at h
  · exact absurd (congrArg Prod.snd h) (by simp)
  split at h
  · exact absurd (congrArg Prod.snd h) (by simp)
  rename_i idx halloc
  split at h
  · exact absurd (congrArg Prod.snd h) (by simp)
  have hi : idx = i := by simpa using congrArg Prod.snd h
  rw [hi] at halloc
  exact halloc

theorem addCellZone_id (env : Env) (db : DB) (rname zname : String) (db' : DB)
    (i : Nat) (h : addCellZone env db rname zname = (db', Outcome.retNat i)) :
    allocateId CELL_ZONE_MAX_INDEX
      ((cellZonesOf db.xmlTree rname).filterMap (fun e => getAttr e "czid")) =
      some i := by
  rw [addCellZone] at h
  split at h
  · exact absurd (congrArg Prod.snd h) (by simp)
  split at h
  · exact absurd (congrArg Prod.snd h) (by simp)
  rename_i idx halloc
  split at h
  · exact absurd (congrArg Prod.snd h) (by simp)
  rename_i zone0 hzone
  simp only [] at h
  split at h
  · exact absurd (congrArg Prod.snd h) (by simp)
  · exact absurd (congrArg Prod.snd h) (by simp)
  rename_i tree' hmod
  have hi : idx = i := by simpa using congrArg Prod.snd h
  rw [hi] at halloc
  exact halloc

theorem addBoundaryCondition_id (env : Env) (db : DB) (rname bname : String)
    (g : Option String) (db' : DB) (i : Nat)
    (h : addBoundaryCondition env db rname bname g = (db', Outcome.retNat i)) :
    allocateId BOUNDARY_CONDITION_MAX_INDEX
      ((boundaryConditionsOf db.xmlTree rname).filterMap
        (fun e => getAttr e "bcid")) = some i := by
  rw [addBoundaryCondition] at h
  split at h
  · exact absurd (congrArg Prod.snd h) (by simp)
  split at h
  · exact absurd (congrArg Prod.snd h) (by simp)
  rename_i idx halloc
  split at h
  · exact absurd (congrArg Prod.snd h) (by simp)
  rename_i bc0 hbc
  simp only [] at h
  split at h
  · exact absurd (congrArg Prod.snd h) (by simp)
  rename_i bc1 hbc1
  split at h
  · exact absurd (congrArg Prod.snd h) (by simp)
  · exact absurd (congrArg Prod.snd h) (by simp)
  rename_i tree' hmod
  have hi : idx = i := by simpa using congrArg Prod.snd h
  rw [hi] at halloc
  exact halloc

/-- C4 amended.  The three id-allocation loops hand out the smallest id
whose decimal string is not in use within `[1, ceiling - 1]` — Python
`range(1, ceiling)` never probes the ceiling itself, so exhaustion
(`OverflowError`, the spec's `Capacity`) happens as soon as
`1 .. ceiling - 1` are all taken even though `ceiling` is free; each adder
returns exactly the id of that loop over its scope's used-id list;
removing a material removes exactly its id from the used list, freeing it
for the smallest-free rule of a later add. -/
theorem id_allocation_amended :
    (∀ maxIndex used i, allocateId maxIndex used = some i ↔
      (1 ≤ i ∧ i ≤ maxIndex - 1 ∧ used.contains (toString i) = false ∧
        ∀ j, 1 ≤ j → j < i → used.contains (toString j) = true)) ∧
    (∀ maxIndex used, allocateId maxIndex used = none ↔
      ∀ j, 1 ≤ j → j ≤ maxIndex - 1 → used.contains (toString j) = true) ∧
    (MATERIAL_MAX_INDEX = 1000 ∧ CELL_ZONE_MAX_INDEX = 1000 ∧
      BOUNDARY_CONDITION_MAX_INDEX = 10000) ∧
    (∀ env db name db' i, addMaterial env db name = (db', Outcome.retNat i) →
      allocateId MATERIAL_MAX_INDEX (usedMids db.xmlTree) = some i) ∧
    (∀ env db r z db' i, addCellZone env db r z = (db', Outcome.retNat i) →
      allocateId CELL_ZONE_MAX_INDEX ((cellZonesOf db.xmlTree r).filterMap
        (fun e => getAttr e "czid")) = some i) ∧
    (∀ env db r b g db' i,
      addBoundaryCondition env db r b g = (db', Outcome.retNat i) →
      allocateId BOUNDARY_CONDITION_MAX_INDEX
        ((boundaryConditionsOf db.xmlTree r).filterMap
          (fun e => getAttr e "bcid")) = some i) ∧
    (∀ env db name db' i p, descTagged db.xmlTree "materials" = [p] →
      containsTagList "materials" p.children = false →
      containsTag "materials" (mkMaterial env i name) = false →
      addMaterial env db name = (db', Outcome.retNat i) →
      usedMids db'.xmlTree = usedMids db.xmlTree ++ [toString i]) ∧
    (∀ db name db' p, descTagged db.xmlTree "materials" = [p] →
      containsTagList "materials" p.children = false →
      (usedMids db.xmlTree).Nodup →
      removeMaterial db name = (db', Outcome.completed) →
      ∃ mid A B, usedMids db.xmlTree = A ++ mid :: B ∧
        usedMids db'.xmlTree = A ++ B ∧ mid ∉ usedMids db'.xmlTree) :=
  ⟨allocateId_some_iff, allocateId_none_iff, ⟨rfl, rfl, rfl⟩,
    fun env db name db' i h => addMaterial_id env db name db' i h,
    fun env db r z db' i h => addCellZone_id env db r z db' i h,
    fun env db r b g db' i h => addBoundaryCondition_id env db r b g db' i h,
    fun env db name db' i p hp hpc hm h =>
      (addMaterial_usedMids env db name db' i p hp hpc hm h).2,
    fun db name db' p hp hpc hnd h =>
      removeMaterial_usedMids db name db' p hp hpc hnd h⟩


/-- C8: on a document where region `region1`'s `material` child holds the
id `1` of material `air` (the layout `addRegion` writes), the document's
actual reference list is `["1"]`, yet `removeMaterial "air"` returns
success and detaches `air`: the code's reference query follows the xpath
`.//cellZones/region/material`, which matches nothing in this layout
(`cellZones` is a child of `region`, not its parent), so the `Referenced`
guard can never fire and a referenced material is removed. -/
theorem removeMaterial_reference_check_bug :
    getMaterials refDb.xmlTree = some [(1, some "air"), (2, some "oxygen")] ∧
    referencedMidsActual refDb.xmlTree = ["1"] ∧
    referencedMidsQueried refDb.xmlTree = [] ∧
    removeMaterial refDb "air" =
      ({ refDb with xmlTree := refDocAfter }, Outcome.completed) ∧
    getMaterials refDocAfter = some [(2, some "oxygen")] := by
  have hmats : materialsOf refDb.xmlTree =
      [.mk "material" [("mid", "1")] [.mk "name" [] [] (some "air")] none,
       .mk "material" [("mid", "2")]
         [.mk "name" [] [] (some "oxygen")] none] := by
    simp [materialsOf, childStep, childrenTagged, descTagged, dos, dosList,
      refDb, refDoc]
  have hq : referencedMidsQueried refDb.xmlTree = [] := by
    simp [referencedMidsQueried, childStep, childrenTagged, descTagged, dos,
      dosList, refDb, refDoc]
  have h1 : firstTagged refDb.xmlTree "materials" =
      some (.mk "materials" []
        [.mk "material" [("mid", "1")] [.mk "name" [] [] (some "air")] none,
         .mk "material" [("mid", "2")]
           [.mk "name" [] [] (some "oxygen")] none] none) := by
    simp [firstTagged, descTagged, dos, dosList, refDb, refDoc]
  have hmatsAfter : materialsOf refDocAfter =
      [.mk "material" [("mid", "2")]
         [.mk "name" [] [] (some "oxygen")] none] := by
    simp [materialsOf, childStep, childrenTagged, descTagged, dos, dosList,
      refDocAfter]
  refine ⟨?_, ?_, hq, ?_, ?_⟩
  · rw [getMaterials, hmats]; decide
  · simp [referencedMidsActual, childStep, childrenTagged, descTagged, dos,
      dosList, refDb, refDoc]
  · have hfind : ((childrenTagged "material" (Element.mk "materials" []
        [Element.mk "material" [("mid", "1")]
           [Element.mk "name" [] [] (some "air")] none,
         Element.mk "material" [("mid", "2")]
           [Element.mk "name" [] [] (some "oxygen")] none] none)).filter
        (hasNameText "air")).head? =
        some (Element.mk "material" [("mid", "1")]
          [Element.mk "name" [] [] (some "air")] none) := rfl
    have hga : getAttr (Element.mk "material" [("mid", "1")]
        [Element.mk "name" [] [] (some "air")] none) "mid" = some "1" := rfl
    have hlen : (materialsOf refDb.xmlTree).length = 2 := by rw [hmats]; rfl
    have hmodMat : modifyFirstTagged "materials"
        (fun p => Element.mk p.tag p.attrs
          (removeFirstChild
            (fun c => c.tag = "material" && hasNameText "air" c) p.children)
          p.text)
        (Element.mk "materials" []
          [Element.mk "material" [("mid", "1")]
             [Element.mk "name" [] [] (some "air")] none,
           Element.mk "material" [("mid", "2")]
             [Element.mk "name" [] [] (some "oxygen")] none] none) =
        some (Element.mk "materials" []
          [Element.mk "material" [("mid", "2")]
             [Element.mk "name" [] [] (some "oxygen")] none] none) := by
      rw [modifyFirstTagged]
      rfl
    have hmod : modifyFirstTagged "materials"
        (fun p => Element.mk p.tag p.attrs
          (removeFirstChild
            (fun c => c.tag = "material" && hasNameText "air" c) p.children)
          p.text) refDb.xmlTree = some refDocAfter := by
      show modifyFirstTagged "materials" _ refDoc = some refDocAfter
      rw [modifyFirstTagged_eq_list "materials" _ refDoc (by decide)]
      rw [show refDoc.children = (Element.mk "materials" []
          [Element.mk "material" [("mid", "1")]
             [Element.mk "name" [] [] (some "air")] none,
           Element.mk "material" [("mid", "2")]
             [Element.mk "name" [] [] (some "oxygen")] none] none) ::
          [Element.mk "regions" []
            [Element.mk "region" []
              [Element.mk "name" [] [] (some "region1"),
               Element.mk "material" [] [] (some "1"),
               Element.mk "cellZones" [] [] none,
               Element.mk "boundaryConditions" [] [] none] none] none]
          from rfl]
      rw [modifyFirstInList_cons_some _ _ _ _ _ hmodMat]
      rfl
    rw [removeMaterial, h1]
    simp [hfind, hga, hq, hlen, hmod]
  · rw [getMaterials, hmatsAfter]; decide

theorem id_allocation_amended_witness :
    allocateId MATERIAL_MAX_INDEX ["1"] = some 2 :=
  (id_allocation_amended.1 MATERIAL_MAX_INDEX ["1"] 2).mpr
    ⟨by decide, by decide, by decide, by
      intro j h1 h2
      have : j = 1 := by omega
      subst this; decide⟩

theorem removeMaterial_sole_guard (db : DB) (name : String) (db' : DB)
    (out : Outcome) (h : removeMaterial db name = (db', out))
    (hlen : (materialsOf db.xmlTree).length = 1) :
    db' = db ∧ out ≠ Outcome.completed := by
  rw [removeMaterial] at h
  repeat' split at h
  all_goals first
    | (injection h with h1 h2
       exact ⟨h1.symm, by rw [← h2]; simp⟩)
    | (exact absurd hlen (by assumption))

theorem removeMaterial_count (db : DB) (name : String) (db' : DB) (p : Element)
    (hp : descTagged db.xmlTree "materials" = [p])
    (hpc : containsTagList "materials" p.children = false)
    (h : removeMaterial db name = (db', Outcome.completed)) :
    (materialsOf db'.xmlTree).length + 1 = (materialsOf db.xmlTree).length ∧
    materialsOf db'.xmlTree ≠ [] := by
  rw [removeMaterial] at h
  split at h
  · exact absurd (congrArg Prod.snd h) (by simp)
  rename_i parent hparent
  have hpar : parent = p := by
    have hfirst : firstTagged db.xmlTree "materials" = some p := by
      rw [firstTagged, hp]
      rfl
    rw [hfirst] at hparent
    exact (Option.some.inj hparent).symm
  subst parent
  split at h
  · exact absurd (congrArg Prod.snd h) (by simp)
  rename_i material hmat
  split at h
  · exact absurd (congrArg Prod.snd h) (by simp)
  rename_i mid hmid
  split at h
  · exact absurd (congrArg Prod.snd h) (by simp)
  split at h
  · exact absurd (congrArg Prod.snd h) (by simp)
  rename_i hlenne
  split at h
  · exact absurd (congrArg Prod.snd h) (by simp)
  rename_i tree' hmod
  have hdb : db' = { db with xmlTree := tree' } := (congrArg Prod.fst h).symm
  subst hdb
  have hptag : p.tag = "materials" := by
    have hmem : p ∈ descTagged db.xmlTree "materials" := by rw [hp]; simp
    have := List.of_mem_filter hmem
    simpa using this
  rw [childrenTagged] at hmat
  have hmat2 : ((p.children.filter
      (fun c => hasNameText name c && decide (c.tag = "material"))).head?) =
      some material := by
    rw [← List.filter_filter]
    exact hmat
  obtain ⟨l1, l2, hsplit, hl1, hpm⟩ := filter_head_split _ _ _ hmat2
  have hl1x : ∀ x ∈ l1,
      (decide (x.tag = "material") && hasNameText name x) = false := by
    intro x hx
    rw [Bool.and_comm]
    exact hl1 x hx
  have hpmx : (decide (material.tag = "material") && hasNameText name material)
      = true := by
    rw [Bool.and_comm]
    exact hpm
  have hrem : removeFirstChild
      (fun c => c.tag = "material" && hasNameText name c) p.children =
      l1 ++ l2 := by
    rw [hsplit]
    exact removeFirstChild_append _ l1 material l2 hl1x hpmx
  have hrepl := modifyFirstTagged_unique "materials" _ db.xmlTree p tree' hp hmod
  have hctl : containsTagList "materials" (l1 ++ l2) = false := by
    have hc := hpc
    rw [hsplit, containsTagList_append, containsTagList_cons] at hc
    rcases Bool.or_eq_false_iff.mp hc with ⟨hA, hBC⟩
    rcases Bool.or_eq_false_iff.mp hBC with ⟨-, hB⟩
    rw [containsTagList_append, hA, hB]
    rfl
  have hnewq : descTagged (Element.mk p.tag p.attrs
      (removeFirstChild (fun c => c.tag = "material" && hasNameText name c)
        p.children) p.text) "materials" =
      [Element.mk p.tag p.attrs
        (removeFirstChild (fun c => c.tag = "material" && hasNameText name c)
          p.children) p.text] := by
    rw [descTagged_unfold]
    rw [if_pos (by simpa using hptag)]
    have hnil : descTaggedList (Element.mk p.tag p.attrs
        (removeFirstChild (fun c => c.tag = "material" && hasNameText name c)
          p.children) p.text).children "materials" = [] := by
      apply descTaggedList_eq_nil_of_not_contains
      simp only [Element.children_mk, hrem]
      exact hctl
    rw [hnil, List.append_nil]
  have hmattag : material.tag = "material" := by
    have := hpm
    simp only [Bool.and_eq_true, decide_eq_true_eq] at this
    exact this.2
  have hmatOld : materialsOf db.xmlTree =
      (l1.filter (fun c => c.tag = "material")) ++ material ::
      (l2.filter (fun c => c.tag = "material")) := by
    rw [materialsOf, hp, childStep]
    simp only [List.flatMap_cons, List.flatMap_nil, List.append_nil,
      childrenTagged]
    rw [hsplit, List.filter_append,
      List.filter_cons_of_pos (by simp [hmattag])]
  have hmatNew : materialsOf tree' =
      (l1.filter (fun c => c.tag = "material")) ++
      (l2.filter (fun c => c.tag = "material")) := by
    rw [materialsOf, hrepl.trans hnewq, childStep]
    simp only [List.flatMap_cons, List.flatMap_nil, List.append_nil,
      childrenTagged, Element.children_mk, hrem]
    rw [List.filter_append]
  constructor
  · rw [hmatOld, hmatNew]
    simp
    omega
  · rw [hmatOld] at hlenne
    rw [hmatNew]
    intro hnil
    rcases List.append_eq_nil.mp hnil with ⟨hA, hB⟩
    rw [hA, hB] at hlenne
    simp at hlenne

theorem setBulk_empty_clears (db : DB) (loc : List Nat) (el : Element)
    (hctx : db.inContext = true) (hel : getAt db.xmlTree loc = some el) :
    setBulk db loc [] =
      ({ db with xmlTree := modifyAt db.xmlTree loc (fun _ => emptyEl el.tag) },
        Outcome.completed) := by
  rw [setBulk, hctx, hel]
  simp [setBulkOn, setBulkInternal]


/-- Counterexample to C9 as stated: with a session open over the fixture
document (one material, `air`), `setBulk` at the materials element with
the empty mapping succeeds — the source clears the resolved element
before rebuilding it from the mapping — leaving the document with zero
materials, so not every sequence of API operations keeps a material. -/
theorem materials_invariant_counterexample :
    materialsOf (enterSession witnessDb).xmlTree ≠ [] ∧
    (setBulk (enterSession witnessDb) [2] []).2 = Outcome.completed ∧
    materialsOf (setBulk (enterSession witnessDb) [2] []).1.xmlTree = [] := by
  have hel : getAt (enterSession witnessDb).xmlTree [2] =
      some witnessMaterialsEl := rfl
  have hsb := setBulk_empty_clears (enterSession witnessDb) [2]
    witnessMaterialsEl rfl hel
  refine ⟨?_, ?_, ?_⟩
  · have hm : materialsOf (enterSession witnessDb).xmlTree =
        [Element.mk "material" [("mid", "1")]
           [Element.mk "name" [] [] (some "air")] none] := by
      show materialsOf witnessDoc = _
      simp [materialsOf, childStep, childrenTagged, descTagged, dos, dosList,
        witnessDoc]
    rw [hm]
    simp
  · rw [hsb]
  · rw [hsb]
    show materialsOf (modifyAt witnessDoc [2] _) = []
    simp [modifyAt, materialsOf, childStep, childrenTagged, descTagged, dos,
      dosList, witnessDoc, emptyEl, witnessMaterialsEl]

/-- C9 corrected: `removeMaterial` never removes the last material — with
the sole material every call leaves the store unchanged and does not
complete, and (under a single materials section) a completing call removes
exactly one material and always leaves at least one behind.  The invariant
does not extend to every operation: `setBulk` clears the resolved element
before rebuilding it, so a bulk write at the materials element whose
mapping holds no material entries leaves the document with zero
materials. -/
theorem materials_invariant_amended :
    (∀ db name db' out, removeMaterial db name = (db', out) →
      (materialsOf db.xmlTree).length = 1 →
      db' = db ∧ out ≠ Outcome.completed) ∧
    (∀ db name db' p, descTagged db.xmlTree "materials" = [p] →
      containsTagList "materials" p.children = false →
      removeMaterial db name = (db', Outcome.completed) →
      (materialsOf db'.xmlTree).length + 1 = (materialsOf db.xmlTree).length ∧
      materialsOf db'.xmlTree ≠ []) ∧
    (∀ db loc el, db.inContext = true → getAt db.xmlTree loc = some el →
      setBulk db loc [] =
        ({ db with
            xmlTree := modifyAt db.xmlTree loc (fun _ => emptyEl el.tag) },
          Outcome.completed)) :=
  ⟨fun db name db' out h hlen =>
      removeMaterial_sole_guard db name db' out h hlen,
   fun db name db' p hp hpc h => removeMaterial_count db name db' p hp hpc h,
   fun db loc el hctx hel => setBulk_empty_clears db loc el hctx hel⟩


/-! ### Round-trip machinery for the bulk codec -/

theorem Element.eta (e : Element) :
    Element.mk e.tag e.attrs e.children e.text = e := by
  cases e
  rfl

theorem dictSet_fresh (acc : List (String × BV)) (k : String) (v : BV)
    (h : ∀ p ∈ acc, p.1 ≠ k) : dictSet acc k v = acc ++ [(k, v)] := by
  have hna : ¬ (acc.any (fun p => p.1 = k) = true) := by
    simp only [List.any_eq_true, decide_eq_true_eq, not_exists]
    intro p
    rintro ⟨hp, hpk⟩
    exact h p hp hpk
  rw [dictSet, if_neg hna]

theorem dictSet_last (acc : List (String × BV)) (k : String) (old v : BV)
    (h : ∀ p ∈ acc, p.1 ≠ k) :
    dictSet (acc ++ [(k, old)]) k v = acc ++ [(k, v)] := by
  rw [dictSet, if_pos (by simp), List.map_append]
  congr 1
  · conv_rhs => rw [← List.map_id acc]
    exact List.map_congr_left (fun p hp => by simp [h p hp, id])
  · simp

theorem dictGet_fresh (acc : List (String × BV)) (k : String)
    (h : ∀ p ∈ acc, p.1 ≠ k) : dictGet acc k = none := by
  rw [dictGet, List.find?_eq_none.mpr]
  · rfl
  · intro p hp
    simp [h p hp]

theorem dictGet_last (acc : List (String × BV)) (k : String) (v : BV)
    (h : ∀ p ∈ acc, p.1 ≠ k) : dictGet (acc ++ [(k, v)]) k = some v := by
  have h1 : acc.find? (fun p => decide (p.1 = k)) = none := by
    rw [List.find?_eq_none]
    intro p hp
    simp [h p hp]
  rw [dictGet, List.find?_append, h1]
  simp

theorem mergeChild_fresh (acc : List (String × BV)) (k : String) (r : BV)
    (h : ∀ p ∈ acc, p.1 ≠ k) : mergeChild acc k r = acc ++ [(k, r)] := by
  rw [mergeChild, dictGet_fresh acc k h]
  exact dictSet_fresh acc k r h

theorem mergeChild_last (acc : List (String × BV)) (k : String) (cur r : BV)
    (h : ∀ p ∈ acc, p.1 ≠ k) :
    mergeChild (acc ++ [(k, cur)]) k r = acc ++ [(k, merge2 cur r)] := by
  rw [mergeChild, dictGet_last acc k cur h]
  cases cur with
  | str s => exact dictSet_last acc k _ _ h
  | dict l => exact dictSet_last acc k _ _ h
  | list xs => exact dictSet_last acc k _ _ h

theorem getBulkChildren_nil (d : List (String × BV)) :
    getBulkChildren d [] = d := by rw [getBulkChildren]

theorem getBulkChildren_cons (d : List (String × BV)) (c : Element)
    (cs : List Element) :
    getBulkChildren d (c :: cs) =
      getBulkChildren (mergeChild d c.tag (getBulkInternal c)) cs := by
  rw [getBulkChildren]

theorem getBulkChildren_append (d : List (String × BV)) (xs ys : List Element) :
    getBulkChildren d (xs ++ ys) = getBulkChildren (getBulkChildren d xs) ys := by
  induction xs generalizing d with
  | nil => rw [List.nil_append, getBulkChildren_nil]
  | cons c cs ih => rw [List.cons_append, getBulkChildren_cons,
      getBulkChildren_cons, ih]

theorem getBulkInternal_mk (t : String) (attrs : List (String × String))
    (children : List Element) (txt : Option String) :
    getBulkInternal (Element.mk t attrs children txt) =
      (let d1 := getBulkChildren
        (attrs.foldl (fun d p => dictSet d ("@" ++ p.1) (BV.str p.2)) [])
        children;
       match txt with
       | some s => if d1.isEmpty then BV.str s
           else BV.dict (dictSet d1 "$" (BV.str s))
       | none => BV.dict d1) := by
  rw [getBulkInternal]
  simp only [Element.tag_mk, Element.attrs_mk, Element.children_mk,
    Element.text_mk]

theorem getBulkInternal_textLeaf (k s : String) :
    getBulkInternal (withText (emptyEl k) (some s)) = BV.str s := by
  rw [withText, getBulkInternal]
  simp [emptyEl, getBulkChildren_nil]

theorem getBulkInternal_emptyEl (k : String) :
    getBulkInternal (emptyEl k) = BV.dict [] := by
  rw [emptyEl, getBulkInternal]
  simp [getBulkChildren_nil]

theorem setAttr_fresh (e : Element) (n v : String)
    (h : ∀ p ∈ e.attrs, p.1 ≠ n) :
    setAttr e n v = .mk e.tag (e.attrs ++ [(n, v)]) e.children e.text := by
  have hna : ¬ (e.attrs.any (fun p => p.1 = n) = true) := by
    simp only [List.any_eq_true, decide_eq_true_eq, not_exists]
    intro p
    rintro ⟨hp, hpk⟩
    exact h p hp hpk
  rw [setAttr, if_neg hna]

theorem foldl_appendChild (k : String) (items : List BV) (e : Element) :
    items.foldl (fun acc i =>
        appendChild acc (withText (emptyEl k) (some (pyStr i)))) e =
      .mk e.tag e.attrs
        (e.children ++ items.map (fun i => withText (emptyEl k) (some (pyStr i))))
        e.text := by
  induction items generalizing e with
  | nil => simp [Element.eta]
  | cons i is ih =>
    rw [List.foldl_cons, ih]
    simp [appendChild]

theorem foldl_merge2_list (xs : List BV) (rs : List BV) :
    rs.foldl merge2 (BV.list xs) = BV.list (xs ++ rs) := by
  induction rs generalizing xs with
  | nil => simp
  | cons r rs ih =>
    rw [List.foldl_cons]
    show rs.foldl merge2 (BV.list (xs ++ [r])) = _
    rw [ih]
    simp


theorem orElseOpt_some (s : String) (t : Option String) :
    orElseOpt (some s) t = some s := rfl

theorem orElseOpt_none (t : Option String) : orElseOpt none t = t := rfl

theorem startsWith_dollar_at : startsWithCh '@' "$" = false := by decide

theorem startsWith_dollar_dollar : startsWithCh '$' "$" = true := by decide

theorem wfEntries_attr_eq :
    ∀ (d : List (String × BV)) (ph : Nat), wfEntries ph d = true →
      ∀ p ∈ d, startsWithCh '@' p.1 = true → "@" ++ p.1.drop 1 = p.1 := by
  intro d
  induction d with
  | nil =>
    intro ph h p hp
    simp at hp
  | cons q rest ih =>
    intro ph h p hp hpa
    obtain ⟨k, v⟩ := q
    rw [wfEntries] at h
    rcases List.mem_cons.mp hp with rfl | hp
    · by_cases hk : k = "$"
      · subst hk
        rw [startsWith_dollar_at] at hpa
        exact Bool.noConfusion hpa
      · rw [if_neg hk, if_pos hpa] at h
        simp only [Bool.and_eq_true, decide_eq_true_eq] at h
        exact h.1.1.2
    · by_cases hk : k = "$"
      · rw [if_pos hk] at h
        simp only [Bool.and_eq_true, List.isEmpty_iff] at h
        rw [h.2] at hp
        simp at hp
      · rw [if_neg hk] at h
        by_cases ha : startsWithCh '@' k = true
        · rw [if_pos ha] at h
          simp only [Bool.and_eq_true] at h
          exact ih 0 h.2 p hp hpa
        · rw [if_neg ha] at h
          simp only [Bool.and_eq_true] at h
          exact ih 1 h.2 p hp hpa

theorem wfEntries_one_no_attrs :
    ∀ (d : List (String × BV)), wfEntries 1 d = true → attrEntries d = [] := by
  intro d
  induction d with
  | nil => intro _; rw [attrEntries]
  | cons q rest ih =>
    intro h
    obtain ⟨k, v⟩ := q
    rw [wfEntries] at h
    by_cases hk : k = "$"
    · subst hk
      rw [if_pos rfl] at h
      simp only [Bool.and_eq_true, List.isEmpty_iff] at h
      rw [attrEntries, if_neg (by simp [startsWith_dollar_at]), h.2,
        attrEntries]
    · rw [if_neg hk] at h
      by_cases ha : startsWithCh '@' k = true
      · rw [if_pos ha] at h
        simp only [Bool.and_eq_true, decide_eq_true_eq] at h
        exact absurd h.1.1.1 (by decide)
      · rw [if_neg ha] at h
        simp only [Bool.and_eq_true] at h
        rw [attrEntries, if_neg ha]
        exact ih h.2

theorem wf_decomp :
    ∀ (d : List (String × BV)) (ph : Nat), wfEntries ph d = true →
      (textOpt d = none ∧ attrEntries d ++ plainEntries d = d) ∨
      (∃ s, textOpt d = some s ∧
        attrEntries d ++ plainEntries d ++ [("$", BV.str s)] = d) := by
  intro d
  induction d with
  | nil =>
    intro ph _
    exact Or.inl ⟨rfl, rfl⟩
  | cons q rest ih =>
    intro ph h
    obtain ⟨k, v⟩ := q
    rw [wfEntries] at h
    by_cases hk : k = "$"
    · subst hk
      rw [if_pos rfl] at h
      simp only [Bool.and_eq_true, List.isEmpty_iff] at h
      obtain ⟨hv, hrest⟩ := h
      subst hrest
      cases v with
      | dict l => simp [isStrB] at hv
      | list l => simp [isStrB] at hv
      | str s =>
        refine Or.inr ⟨s, ?_, ?_⟩
        · rw [textOpt,
            if_pos (by simp [startsWith_dollar_at, startsWith_dollar_dollar])]
          rfl
        · rw [attrEntries, if_neg (by simp [startsWith_dollar_at]),
            attrEntries, plainEntries,
            if_pos (by simp [startsWith_dollar_dollar]), plainEntries]
          rfl
    · rw [if_neg hk] at h
      by_cases ha : startsWithCh '@' k = true
      · rw [if_pos ha] at h
        simp only [Bool.and_eq_true] at h
        have hrec := ih 0 h.2
        have hskip1 : textOpt ((k, v) :: rest) = textOpt rest := by
          rw [textOpt, if_neg (by simp [ha])]
        have hskip2 : attrEntries ((k, v) :: rest) =
            (k, v) :: attrEntries rest := by
          rw [attrEntries, if_pos ha]
        have hskip3 : plainEntries ((k, v) :: rest) = plainEntries rest := by
          rw [plainEntries, if_pos (by simp [ha])]
        rcases hrec with ⟨h1, h2⟩ | ⟨s, h1, h2⟩
        · exact Or.inl ⟨by rw [hskip1, h1],
            by rw [hskip2, hskip3, List.cons_append, h2]⟩
        · exact Or.inr ⟨s, by rw [hskip1, h1],
            by rw [hskip2, hskip3]; simp only [List.cons_append, List.append_assoc] at h2 ⊢; rw [h2]⟩
      · rw [if_neg ha] at h
        simp only [Bool.and_eq_true, Bool.not_eq_true'] at h
        obtain ⟨⟨hds, hv⟩, hrest⟩ := h
        have hna : attrEntries rest = [] := wfEntries_one_no_attrs rest hrest
        have hrec := ih 1 hrest
        have ha' : startsWithCh '@' k = false := by
          simpa using ha
        have hskip1 : textOpt ((k, v) :: rest) = textOpt rest := by
          rw [textOpt, if_neg (by simp [ha', hds])]
        have hskip2 : attrEntries ((k, v) :: rest) = attrEntries rest := by
          rw [attrEntries, if_neg (by simp [ha'])]
        have hskip3 : plainEntries ((k, v) :: rest) =
            (k, v) :: plainEntries rest := by
          rw [plainEntries, if_neg (by simp [ha', hds])]
        rcases hrec with ⟨h1, h2⟩ | ⟨s, h1, h2⟩
        · refine Or.inl ⟨by rw [hskip1, h1], ?_⟩
          rw [hskip2, hskip3, hna]
          rw [hna] at h2
          simp only [List.nil_append] at h2 ⊢
          rw [h2]
        · refine Or.inr ⟨s, by rw [hskip1, h1], ?_⟩
          rw [hskip2, hskip3, hna]
          rw [hna] at h2
          simp only [List.nil_append, List.cons_append] at h2 ⊢
          rw [h2]


theorem setBulkInternal_build :
    ∀ (N : Nat) (d : List (String × BV)), sizeOf d < N →
      ∀ (ph : Nat) (e : Element),
      wfEntries ph d = true → nodupKeys (d.map Prod.fst) = true →
      (∀ p ∈ d, startsWithCh '@' p.1 = true → ∀ q ∈ e.attrs,
        q.1 ≠ p.1.drop 1) →
      setBulkInternal e d =
        (Element.mk e.tag (e.attrs ++ attrList d) (e.children ++ kidList d)
          (orElseOpt (textOpt d) e.text), true) := by
  intro N
  induction N with
  | zero =>
    intro d h
    exact absurd h (by omega)
  | succ N ihN =>
    intro d hsz ph e hwf hnd hfresh
    cases d with
    | nil =>
      rw [setBulkInternal, attrList, kidList, textOpt, orElseOpt_none]
      simp [Element.eta]
    | cons q rest =>
    obtain ⟨k, v⟩ := q
    have hnd' : nodupKeys (rest.map Prod.fst) = true := by
      rw [List.map_cons, nodupKeys] at hnd
      simp only [Bool.and_eq_true] at hnd
      exact hnd.2
    have hkni : ((rest.map Prod.fst).contains k) = false := by
      rw [List.map_cons, nodupKeys] at hnd
      simp only [Bool.and_eq_true] at hnd
      simpa using hnd.1
    have hszr : sizeOf rest < N := by simp at hsz; omega
    by_cases hk : k = "$"
    · subst hk
      rw [wfEntries, if_pos rfl] at hwf
      simp only [Bool.and_eq_true, List.isEmpty_iff] at hwf
      obtain ⟨hv, hrest⟩ := hwf
      subst hrest
      cases v with
      | dict l => simp [isStrB] at hv
      | list l => simp [isStrB] at hv
      | str s =>
        rw [setBulkInternal, if_neg (by simp [startsWith_dollar_at]),
          if_pos startsWith_dollar_dollar, setBulkInternal]
        rw [attrList, if_neg (by simp [startsWith_dollar_at]), attrList,
          kidList, if_pos (by simp [startsWith_dollar_dollar]), kidList,
          textOpt,
          if_pos (by simp [startsWith_dollar_at, startsWith_dollar_dollar]),
          orElseOpt_some]
        simp [withText, pyStr]
    · rw [wfEntries, if_neg hk] at hwf
      by_cases ha : startsWithCh '@' k = true
      · rw [if_pos ha] at hwf
        simp only [Bool.and_eq_true, decide_eq_true_eq] at hwf
        obtain ⟨⟨⟨hph, hkey⟩, hv⟩, hrest⟩ := hwf
        cases v with
        | dict l => simp [isStrB] at hv
        | list l => simp [isStrB] at hv
        | str s =>
          have hfr : ∀ q ∈ e.attrs, q.1 ≠ k.drop 1 :=
            hfresh (k, BV.str s) (by simp) ha
          have hfresh' : ∀ p ∈ rest, startsWithCh '@' p.1 = true →
              ∀ q ∈ (e.attrs ++ [(k.drop 1, s)]), q.1 ≠ p.1.drop 1 := by
            intro p hp hpa q hq
            rcases List.mem_append.mp hq with hq | hq
            · exact hfresh p (by simp [hp]) hpa q hq
            · have hq' : q = (k.drop 1, s) := by simpa using hq
              subst hq'
              intro hcon
              have hpkey : "@" ++ p.1.drop 1 = p.1 :=
                wfEntries_attr_eq rest 0 hrest p hp hpa
              have hpk : p.1 = k := by
                rw [← hpkey, ← hcon, hkey]
              have hkmem : k ∉ rest.map Prod.fst := by simpa using hkni
              exact hkmem (hpk ▸ List.mem_map_of_mem Prod.fst hp)
          have hstep := ihN rest hszr 0
            (Element.mk e.tag (e.attrs ++ [(k.drop 1, s)]) e.children e.text)
            hrest hnd' (by simpa using hfresh')
          rw [setBulkInternal, if_pos ha]
          rw [setAttr_fresh e (k.drop 1) s hfr, hstep]
          rw [attrList, if_pos ha, kidList, if_pos (by simp [ha]), textOpt,
            if_neg (by simp [ha])]
          simp [strOf]
      · rw [if_neg ha] at hwf
        simp only [Bool.and_eq_true, Bool.not_eq_true'] at hwf
        obtain ⟨⟨hds, hv⟩, hrest⟩ := hwf
        have ha' : startsWithCh '@' k = false := by simpa using ha
        have hfresh' : ∀ p ∈ rest, startsWithCh '@' p.1 = true →
            ∀ q ∈ e.attrs, q.1 ≠ p.1.drop 1 := by
          intro p hp
          exact hfresh p (by simp [hp])
        rw [attrList, if_neg (by simp [ha']), kidList,
          if_neg (by simp [ha', hds]), textOpt, if_neg (by simp [ha', hds])]
        cases v with
        | str s =>
          rw [setBulkInternal, if_neg (by simp [ha']), if_neg (by simp [hds])]
          rw [ihN rest hszr 1 _ hrest hnd' (by simpa using hfresh')]
          simp [appendChild, encodeVal, List.append_assoc]
        | dict d1 =>
          rw [wfVal] at hv
          simp only [Bool.and_eq_true] at hv
          obtain ⟨⟨hwfd, hndd⟩, hgd⟩ := hv
          have hszd : sizeOf d1 < N := by simp at hsz; omega
          have hinner := ihN d1 hszd 0 (emptyEl k) hwfd hndd
            (by intro p hp hpa q hq; simp [emptyEl] at hq)
          have hchild : (setBulkInternal (emptyEl k) d1).1 =
              Element.mk k (attrList d1) (kidList d1)
                (orElseOpt (textOpt d1) none) := by
            rw [hinner]
            simp [emptyEl]
          rw [setBulkInternal, if_neg (by simp [ha']), if_neg (by simp [hds])]
          rw [hinner]
          simp only []
          rw [ihN rest hszr 1 _ hrest hnd' (by simpa using hfresh')]
          simp [appendChild, encodeVal, hchild, List.append_assoc]
          exact ⟨rfl, rfl, rfl, rfl⟩
        | list items =>
          cases items with
          | nil =>
            rw [wfVal] at hv
            exact Bool.noConfusion hv
          | cons first more =>
            rw [wfVal] at hv
            simp only [Bool.and_eq_true, decide_eq_true_eq,
              Bool.or_eq_true] at hv
            obtain ⟨hlen, hitems⟩ := hv
            have hszitems : ∀ i ∈ (first :: more), sizeOf i < N := by
              intro i hi
              have h1 := List.sizeOf_lt_of_mem hi
              simp at hsz h1
              omega
            rcases hitems with hstrs | hdicts
            · have hfirst : isStrB first = true := by
                rw [wfItemsStr] at hstrs
                simp only [Bool.and_eq_true] at hstrs
                exact hstrs.1
              cases first with
              | dict l1 => simp [isStrB] at hfirst
              | list l1 => simp [isStrB] at hfirst
              | str s0 =>
                rw [setBulkInternal, if_neg (by simp [ha']),
                  if_neg (by simp [hds])]
                rw [foldl_appendChild]
                rw [ihN rest hszr 1 _ hrest hnd' (by simpa using hfresh')]
                simp [encodeVal, List.append_assoc]
                intro d0 hcon
                exact BV.noConfusion hcon
            · have hsdi : ∀ (its : List BV), (∀ i ∈ its, sizeOf i < N) →
                  wfItemsDict its = true → ∀ (ea : Element),
                  setBulkDictItems ea k its =
                    (Element.mk ea.tag ea.attrs (ea.children ++ its.map
                      (fun i => (setBulkInternal (emptyEl k)
                        (match i with | .dict di => di | _ => [])).1))
                      ea.text, true) := by
                intro its
                induction its with
                | nil =>
                  intro _ _ ea
                  rw [setBulkDictItems]
                  simp [Element.eta]
                | cons i is ihI =>
                  intro hszs hwfI ea
                  cases i with
                  | str s1 => simp [wfItemsDict] at hwfI
                  | list l1 => simp [wfItemsDict] at hwfI
                  | dict di =>
                    rw [wfItemsDict] at hwfI
                    simp only [Bool.and_eq_true] at hwfI
                    obtain ⟨⟨⟨hwfdi, hnddi⟩, hgdi⟩, his⟩ := hwfI
                    have hbd : sizeOf di < N := by
                      have h2 := hszs (BV.dict di) (by simp)
                      simp at h2
                      omega
                    have hinner := ihN di hbd 0 (emptyEl k) hwfdi hnddi
                      (by intro p hp hpa q hq; simp [emptyEl] at hq)
                    rw [setBulkDictItems, hinner]
                    simp only []
                    rw [ihI (fun j hj => hszs j (by simp [hj])) his]
                    simp [appendChild, hinner, List.append_assoc]
              have hfd0 : ∃ d0, first = BV.dict d0 := by
                cases first with
                | str s1 => simp [wfItemsDict] at hdicts
                | list l1 => simp [wfItemsDict] at hdicts
                | dict d0 => exact ⟨d0, rfl⟩
              obtain ⟨d0, rfl⟩ := hfd0
              rw [setBulkInternal, if_neg (by simp [ha']),
                if_neg (by simp [hds])]
              rw [hsdi (BV.dict d0 :: more) hszitems hdicts e]
              simp only []
              rw [ihN rest hszr 1 _ hrest hnd' (by simpa using hfresh')]
              simp [encodeVal, List.append_assoc]


theorem orElseOpt_none_right (o : Option String) : orElseOpt o none = o := by
  cases o <;> rfl

theorem attrEntries_subset :
    ∀ (d : List (String × BV)), ∀ p ∈ attrEntries d, p ∈ d := by
  intro d
  induction d with
  | nil => intro p hp; rw [attrEntries] at hp; exact absurd hp (by simp)
  | cons q rest ih =>
    intro p hp
    obtain ⟨k, v⟩ := q
    rw [attrEntries] at hp
    by_cases ha : startsWithCh '@' k = true
    · rw [if_pos ha] at hp
      rcases List.mem_cons.mp hp with rfl | hp
      · exact List.mem_cons_self _ _
      · exact List.mem_cons_of_mem _ (ih p hp)
    · rw [if_neg ha] at hp
      exact List.mem_cons_of_mem _ (ih p hp)

theorem plainEntries_subset :
    ∀ (d : List (String × BV)), ∀ p ∈ plainEntries d, p ∈ d := by
  intro d
  induction d with
  | nil => intro p hp; rw [plainEntries] at hp; exact absurd hp (by simp)
  | cons q rest ih =>
    intro p hp
    obtain ⟨k, v⟩ := q
    rw [plainEntries] at hp
    by_cases ha : (startsWithCh '@' k || startsWithCh '$' k) = true
    · rw [if_pos ha] at hp
      exact List.mem_cons_of_mem _ (ih p hp)
    · rw [if_neg ha] at hp
      rcases List.mem_cons.mp hp with rfl | hp
      · exact List.mem_cons_self _ _
      · exact List.mem_cons_of_mem _ (ih p hp)

theorem wf_attr_facts :
    ∀ (d : List (String × BV)) (ph : Nat), wfEntries ph d = true →
      ∀ p ∈ attrEntries d, startsWithCh '@' p.1 = true ∧ isStrB p.2 = true := by
  intro d
  induction d with
  | nil => intro ph _ p hp; rw [attrEntries] at hp; exact absurd hp (by simp)
  | cons q rest ih =>
    intro ph h p hp
    obtain ⟨k, v⟩ := q
    rw [wfEntries] at h
    rw [attrEntries] at hp
    by_cases hk : k = "$"
    · subst hk
      rw [if_pos rfl] at h
      rw [if_neg (by simp [startsWith_dollar_at])] at hp
      simp only [Bool.and_eq_true, List.isEmpty_iff] at h
      rw [h.2, attrEntries] at hp
      exact absurd hp (by simp)
    · rw [if_neg hk] at h
      by_cases ha : startsWithCh '@' k = true
      · rw [if_pos ha] at h
        rw [if_pos ha] at hp
        simp only [Bool.and_eq_true, decide_eq_true_eq] at h
        rcases List.mem_cons.mp hp with rfl | hp
        · exact ⟨ha, h.1.2⟩
        · exact ih 0 h.2 p hp
      · rw [if_neg ha] at h
        rw [if_neg ha] at hp
        simp only [Bool.and_eq_true] at h
        exact ih 1 h.2 p hp

theorem wf_plain_facts :
    ∀ (d : List (String × BV)) (ph : Nat), wfEntries ph d = true →
      ∀ p ∈ plainEntries d, startsWithCh '@' p.1 = false ∧
        startsWithCh '$' p.1 = false ∧ wfVal p.2 = true := by
  intro d
  induction d with
  | nil => intro ph _ p hp; rw [plainEntries] at hp; exact absurd hp (by simp)
  | cons q rest ih =>
    intro ph h p hp
    obtain ⟨k, v⟩ := q
    rw [wfEntries] at h
    rw [plainEntries] at hp
    by_cases hk : k = "$"
    · subst hk
      rw [if_pos rfl] at h
      rw [if_pos (by simp [startsWith_dollar_dollar])] at hp
      simp only [Bool.and_eq_true, List.isEmpty_iff] at h
      rw [h.2, plainEntries] at hp
      exact absurd hp (by simp)
    · rw [if_neg hk] at h
      by_cases ha : startsWithCh '@' k = true
      · rw [if_pos ha] at h
        rw [if_pos (by simp [ha])] at hp
        simp only [Bool.and_eq_true] at h
        exact ih 0 h.2 p hp
      · rw [if_neg ha] at h
        simp only [Bool.and_eq_true, Bool.not_eq_true'] at h
        obtain ⟨⟨hds, hv⟩, hrest⟩ := h
        rw [if_neg (by simp [ha, hds])] at hp
        rcases List.mem_cons.mp hp with rfl | hp
        · exact ⟨by simpa using ha, hds, hv⟩
        · exact ih 1 hrest p hp

theorem getBulkChildren_group (k : String) :
    ∀ (its : List BV) (f : BV → Element),
      (∀ i ∈ its, (f i).tag = k ∧ getBulkInternal (f i) = i) →
      ∀ (acc : List (String × BV)) (cur : BV), (∀ q ∈ acc, q.1 ≠ k) →
      getBulkChildren (acc ++ [(k, cur)]) (its.map f) =
        acc ++ [(k, its.foldl merge2 cur)] := by
  intro its
  induction its with
  | nil =>
    intro f _ acc cur _
    rw [List.map_nil, getBulkChildren_nil, List.foldl_nil]
  | cons i is ih =>
    intro f hread acc cur hfr
    rw [List.map_cons, getBulkChildren_cons, (hread i (by simp)).1,
      (hread i (by simp)).2, mergeChild_last acc k cur i hfr,
      List.foldl_cons]
    exact ih f (fun j hj => hread j (by simp [hj])) acc (merge2 cur i) hfr

theorem foldl_merge2_all (first : BV) (hfirst : ∀ xs, first ≠ BV.list xs) :
    ∀ (more : List BV), 1 ≤ more.length →
      more.foldl merge2 first = BV.list (first :: more) := by
  intro more hlen
  cases more with
  | nil => simp at hlen
  | cons m0 mrest =>
    rw [List.foldl_cons]
    have h2 : merge2 first m0 = BV.list [first, m0] := by
      cases first with
      | str s => rfl
      | dict l => rfl
      | list xs => exact absurd rfl (hfirst xs)
    rw [h2, foldl_merge2_list]
    simp


theorem foldAttrs_build :
    ∀ (d : List (String × BV)) (ph : Nat), wfEntries ph d = true →
      nodupKeys (d.map Prod.fst) = true →
      ∀ (acc : List (String × BV)),
        (∀ p ∈ attrEntries d, ∀ q ∈ acc, q.1 ≠ p.1) →
        (attrList d).foldl
          (fun dd p => dictSet dd ("@" ++ p.1) (BV.str p.2)) acc =
          acc ++ attrEntries d := by
  intro d
  induction d with
  | nil =>
    intro ph _ _ acc _
    rw [attrList, attrEntries, List.foldl_nil, List.append_nil]
  | cons q rest ih =>
    intro ph hwf hnd acc hfr
    obtain ⟨k, v⟩ := q
    have hnd2 := hnd
    rw [List.map_cons, nodupKeys] at hnd2
    simp only [Bool.and_eq_true] at hnd2
    rw [wfEntries] at hwf
    by_cases hk : k = "$"
    · subst hk
      rw [if_pos rfl] at hwf
      simp only [Bool.and_eq_true, List.isEmpty_iff] at hwf
      rw [hwf.2]
      rw [attrList, if_neg (by simp [startsWith_dollar_at]), attrList,
        attrEntries, if_neg (by simp [startsWith_dollar_at]), attrEntries,
        List.foldl_nil, List.append_nil]
    · rw [if_neg hk] at hwf
      by_cases ha : startsWithCh '@' k = true
      · rw [if_pos ha] at hwf
        simp only [Bool.and_eq_true, decide_eq_true_eq] at hwf
        obtain ⟨⟨⟨hph, hkey⟩, hv⟩, hrest⟩ := hwf
        cases v with
        | dict l => simp [isStrB] at hv
        | list l => simp [isStrB] at hv
        | str s =>
          rw [attrList, if_pos ha, attrEntries, if_pos ha, List.foldl_cons]
          have hfr0 : ∀ q ∈ acc, q.1 ≠ k := by
            intro q hq
            exact hfr (k, BV.str s) (by rw [attrEntries, if_pos ha]; simp) q hq
          have hset : dictSet acc ("@" ++ (k, BV.str s).1.drop 1)
              (BV.str (strOf (k, BV.str s).2)) = acc ++ [(k, BV.str s)] := by
            simp only [strOf]
            rw [show ("@" ++ (k, BV.str s).1.drop 1) = k from hkey]
            exact dictSet_fresh acc k (BV.str s) hfr0
          rw [hset]
          have hfr' : ∀ p ∈ attrEntries rest,
              ∀ q ∈ (acc ++ [(k, BV.str s)]), q.1 ≠ p.1 := by
            intro p hp q hq
            rcases List.mem_append.mp hq with hq | hq
            · exact hfr p (by rw [attrEntries, if_pos ha]; simp [hp]) q hq
            · have hq' : q = (k, BV.str s) := by simpa using hq
              subst hq'
              intro hcon
              have hpmem : p ∈ rest := attrEntries_subset rest p hp
              have hkm : k ∉ rest.map Prod.fst := by simpa using hnd2.1
              have hcon' : p.1 = k := by simpa using hcon.symm
              exact hkm (hcon' ▸ List.mem_map_of_mem Prod.fst hpmem)
          rw [ih 0 hrest hnd2.2 (acc ++ [(k, BV.str s)]) hfr']
          rw [List.append_assoc]
          rfl
      · rw [if_neg ha] at hwf
        simp only [Bool.and_eq_true, Bool.not_eq_true'] at hwf
        obtain ⟨⟨hds, hv⟩, hrest⟩ := hwf
        rw [attrList, if_neg ha, attrEntries, if_neg ha]
        refine ih 1 hrest hnd2.2 acc ?_
        intro p hp q hq
        exact hfr p (by rw [attrEntries, if_neg ha]; exact hp) q hq


theorem wfItemsStr_mem :
    ∀ (l : List BV), wfItemsStr l = true → ∀ i ∈ l, isStrB i = true := by
  intro l
  induction l with
  | nil => intro _ i hi; exact absurd hi (by simp)
  | cons j rest ih =>
    intro h i hi
    rw [wfItemsStr] at h
    simp only [Bool.and_eq_true] at h
    rcases List.mem_cons.mp hi with rfl | hi
    · exact h.1
    · exact ih h.2 i hi

theorem wfItemsDict_mem :
    ∀ (l : List BV), wfItemsDict l = true →
      ∀ i ∈ l, ∃ di, i = BV.dict di ∧ wfEntries 0 di = true ∧
        nodupKeys (di.map Prod.fst) = true ∧ dollarGuard di = true := by
  intro l
  induction l with
  | nil => intro _ i hi; exact absurd hi (by simp)
  | cons j rest ih =>
    intro h i hi
    cases j with
    | str s => simp [wfItemsDict] at h
    | list xs => simp [wfItemsDict] at h
    | dict dq =>
      rw [wfItemsDict] at h
      simp only [Bool.and_eq_true] at h
      rcases List.mem_cons.mp hi with rfl | hi
      · exact ⟨dq, rfl, h.1.1.1, h.1.1.2, h.1.2⟩
      · exact ih h.2 i hi

theorem getBulk_build :
    ∀ (N : Nat) (d : List (String × BV)), sizeOf d < N →
      wfEntries 0 d = true → nodupKeys (d.map Prod.fst) = true →
      dollarGuard d = true → ∀ (t : String),
      getBulkInternal (Element.mk t (attrList d) (kidList d) (textOpt d)) =
        BV.dict d := by
  intro N
  induction N with
  | zero =>
    intro d h
    exact absurd h (by omega)
  | succ N ihN =>
    intro d hsz hwf hnd hguard t
    have hGC : ∀ (suf : List (String × BV)) (ph : Nat),
        wfEntries ph suf = true → nodupKeys (suf.map Prod.fst) = true →
        sizeOf suf ≤ sizeOf d →
        ∀ (acc : List (String × BV)),
          (∀ p ∈ plainEntries suf, ∀ q ∈ acc, q.1 ≠ p.1) →
          getBulkChildren acc (kidList suf) = acc ++ plainEntries suf := by
      intro suf
      induction suf with
      | nil =>
        intro ph _ _ _ acc _
        rw [kidList, plainEntries, getBulkChildren_nil, List.append_nil]
      | cons q rest ihS =>
        intro ph hwfS hndS hbound acc hfrS
        obtain ⟨k, v⟩ := q
        have hnd2 := hndS
        rw [List.map_cons, nodupKeys] at hnd2
        simp only [Bool.and_eq_true] at hnd2
        have hbr : sizeOf rest ≤ sizeOf d := by
          have h1 : sizeOf rest ≤ sizeOf ((k, v) :: rest) := by simp
          omega
        rw [wfEntries] at hwfS
        by_cases hk : k = "$"
        · subst hk
          rw [if_pos rfl] at hwfS
          simp only [Bool.and_eq_true, List.isEmpty_iff] at hwfS
          rw [hwfS.2]
          rw [kidList, if_pos (by simp [startsWith_dollar_dollar]), kidList,
            plainEntries, if_pos (by simp [startsWith_dollar_dollar]),
            plainEntries, getBulkChildren_nil, List.append_nil]
        · rw [if_neg hk] at hwfS
          by_cases ha : startsWithCh '@' k = true
          · rw [if_pos ha] at hwfS
            simp only [Bool.and_eq_true, decide_eq_true_eq] at hwfS
            rw [kidList, if_pos (by simp [ha]), plainEntries,
              if_pos (by simp [ha])]
            refine ihS 0 hwfS.2 hnd2.2 hbr acc ?_
            intro p hp q hq
            exact hfrS p
              (by rw [plainEntries, if_pos (by simp [ha])]; exact hp) q hq
          · rw [if_neg ha] at hwfS
            simp only [Bool.and_eq_true, Bool.not_eq_true'] at hwfS
            obtain ⟨⟨hds, hv⟩, hrest⟩ := hwfS
            have ha' : startsWithCh '@' k = false := by simpa using ha
            rw [kidList, if_neg (by simp [ha', hds]), plainEntries,
              if_neg (by simp [ha', hds])]
            rw [getBulkChildren_append]
            have hfrk : ∀ q ∈ acc, q.1 ≠ k := by
              intro q hq
              exact hfrS (k, v)
                (by rw [plainEntries, if_neg (by simp [ha', hds])]; simp) q hq
            have hgrp : getBulkChildren acc (encodeVal k v) =
                acc ++ [(k, v)] := by
              cases v with
              | str s =>
                rw [encodeVal, getBulkChildren_cons]
                rw [show (withText (emptyEl k) (some s)).tag = k from rfl,
                  getBulkInternal_textLeaf, mergeChild_fresh acc k _ hfrk,
                  getBulkChildren_nil]
              | dict d1 =>
                rw [wfVal] at hv
                simp only [Bool.and_eq_true] at hv
                obtain ⟨⟨hwfd, hndd⟩, hgd⟩ := hv
                have hszd : sizeOf d1 < N := by
                  have h1 : sizeOf ((k, BV.dict d1) :: rest) ≤ sizeOf d :=
                    hbound
                  simp at h1
                  omega
                have hbuild := setBulkInternal_build (sizeOf d1 + 1) d1
                  (by omega) 0 (emptyEl k) hwfd hndd
                  (by intro p hp hpa q hq; simp [emptyEl] at hq)
                have hchild : (setBulkInternal (emptyEl k) d1).1 =
                    Element.mk k (attrList d1) (kidList d1) (textOpt d1) := by
                  rw [hbuild]
                  simp [emptyEl, orElseOpt_none_right]
                rw [encodeVal, getBulkChildren_cons, hchild]
                rw [show (Element.mk k (attrList d1) (kidList d1)
                  (textOpt d1)).tag = k from rfl]
                rw [ihN d1 hszd hwfd hndd hgd k]
                rw [mergeChild_fresh acc k _ hfrk, getBulkChildren_nil]
              | list items =>
                cases items with
                | nil =>
                  rw [wfVal] at hv
                  exact Bool.noConfusion hv
                | cons first more =>
                  rw [wfVal] at hv
                  simp only [Bool.and_eq_true, decide_eq_true_eq,
                    Bool.or_eq_true] at hv
                  obtain ⟨hlen, hitems⟩ := hv
                  have hszit : ∀ i ∈ (first :: more), sizeOf i < N := by
                    intro i hi
                    have h1 := List.sizeOf_lt_of_mem hi
                    have h2 : sizeOf ((k, BV.list (first :: more)) :: rest) ≤
                        sizeOf d := hbound
                    simp at h1 h2
                    omega
                  rcases hitems with hstrs | hdicts
                  · have hfs : isStrB first = true :=
                      wfItemsStr_mem _ hstrs first (by simp)
                    cases first with
                    | dict l1 => simp [isStrB] at hfs
                    | list l1 => simp [isStrB] at hfs
                    | str s0 =>
                      have hread : ∀ i ∈ (BV.str s0 :: more),
                          ((fun i => withText (emptyEl k)
                            (some (pyStr i))) i).tag = k ∧
                          getBulkInternal ((fun i => withText (emptyEl k)
                            (some (pyStr i))) i) = i := by
                        intro i hi
                        have hstr := wfItemsStr_mem _ hstrs i hi
                        cases i with
                        | dict l2 => simp [isStrB] at hstr
                        | list l2 => simp [isStrB] at hstr
                        | str si =>
                          exact ⟨rfl, by rw [getBulkInternal_textLeaf]; rfl⟩
                      rw [encodeVal, List.map_cons, getBulkChildren_cons]
                      rw [(hread (BV.str s0) (by simp)).1,
                        (hread (BV.str s0) (by simp)).2,
                        mergeChild_fresh acc k _ hfrk]
                      rw [getBulkChildren_group k more _
                        (fun j hj => hread j (by simp [hj])) acc
                        (BV.str s0) hfrk]
                      rw [foldl_merge2_all (BV.str s0)
                        (fun xs hcon => BV.noConfusion hcon) more hlen]
                      intro d0 hcon
                      exact BV.noConfusion hcon
                  · have hfd := wfItemsDict_mem _ hdicts first (by simp)
                    obtain ⟨d0, rfl, hwf0, hnd0, hg0⟩ := hfd
                    have hread : ∀ i ∈ (BV.dict d0 :: more),
                        ((fun i => (setBulkInternal (emptyEl k)
                          (match i with
                           | BV.dict di => di
                           | _ => [])).1) i).tag = k ∧
                        getBulkInternal ((fun i => (setBulkInternal (emptyEl k)
                          (match i with
                           | BV.dict di => di
                           | _ => [])).1) i) = i := by
                      intro i hi
                      obtain ⟨di, rfl, hwfi, hndi, hgi⟩ :=
                        wfItemsDict_mem _ hdicts i hi
                      have hszi : sizeOf di < N := by
                        have h1 := hszit (BV.dict di) hi
                        simp at h1
                        omega
                      have hbuild := setBulkInternal_build (sizeOf di + 1) di
                        (by omega) 0 (emptyEl k) hwfi hndi
                        (by intro p hp hpa q hq; simp [emptyEl] at hq)
                      have hchild : (setBulkInternal (emptyEl k) di).1 =
                          Element.mk k (attrList di) (kidList di)
                            (textOpt di) := by
                        rw [hbuild]
                        simp [emptyEl, orElseOpt_none_right]
                      refine ⟨?_, ?_⟩
                      · simp only []
                        rw [hchild]
                        exact Element.tag_mk _ _ _ _
                      · simp only []
                        rw [hchild, ihN di hszi hwfi hndi hgi k]
                    rw [encodeVal, List.map_cons, getBulkChildren_cons]
                    rw [(hread (BV.dict d0) (by simp)).1,
                      (hread (BV.dict d0) (by simp)).2,
                      mergeChild_fresh acc k _ hfrk]
                    rw [getBulkChildren_group k more _
                      (fun j hj => hread j (by simp [hj])) acc
                      (BV.dict d0) hfrk]
                    rw [foldl_merge2_all (BV.dict d0)
                      (fun xs hcon => BV.noConfusion hcon) more hlen]
            rw [hgrp]
            have hfr' : ∀ p ∈ plainEntries rest,
                ∀ q ∈ (acc ++ [(k, v)]), q.1 ≠ p.1 := by
              intro p hp q hq
              rcases List.mem_append.mp hq with hq | hq
              · exact hfrS p
                  (by rw [plainEntries, if_neg (by simp [ha', hds])];
                      simp [hp]) q hq
              · have hq' : q = (k, v) := by simpa using hq
                subst hq'
                intro hcon
                have hpmem : p ∈ rest := plainEntries_subset rest p hp
                have hkm : k ∉ rest.map Prod.fst := by simpa using hnd2.1
                have hcon' : p.1 = k := by simpa using hcon.symm
                exact hkm (hcon' ▸ List.mem_map_of_mem Prod.fst hpmem)
            rw [ihS 1 hrest hnd2.2 hbr (acc ++ [(k, v)]) hfr']
            rw [List.append_assoc]
            rfl
    rw [getBulkInternal_mk]
    simp only [Element.tag_mk, Element.attrs_mk, Element.children_mk,
      Element.text_mk]
    have hd0 : (attrList d).foldl
        (fun dd p => dictSet dd ("@" ++ p.1) (BV.str p.2)) [] =
        attrEntries d :=
      foldAttrs_build d 0 hwf hnd [] (by intro p hp q hq; simp at hq)
    have hfr0 : ∀ p ∈ plainEntries d, ∀ q ∈ attrEntries d, q.1 ≠ p.1 := by
      intro p hp q hq hcon
      have hqa := (wf_attr_facts d 0 hwf q hq).1
      have hpa := (wf_plain_facts d 0 hwf p hp).1
      rw [hcon, hpa] at hqa
      exact Bool.noConfusion hqa
    have hd1 : getBulkChildren (attrEntries d) (kidList d) =
        attrEntries d ++ plainEntries d :=
      hGC d 0 hwf hnd (le_refl _) (attrEntries d) hfr0
    rw [hd0, hd1]
    rcases wf_decomp d 0 hwf with ⟨h1, h2⟩ | ⟨s, h1, h2⟩
    · rw [h1]
      exact congrArg BV.dict h2
    · rw [h1]
      simp only []
      have hne : (attrEntries d ++ plainEntries d) ≠ [] := by
        intro hnil
        rw [hnil] at h2
        rw [← h2] at hguard
        simp [dollarGuard] at hguard
      rw [if_neg (by simpa [List.isEmpty_iff] using hne)]
      have hset : dictSet (attrEntries d ++ plainEntries d) "$" (BV.str s) =
          (attrEntries d ++ plainEntries d) ++ [("$", BV.str s)] := by
        apply dictSet_fresh
        intro p hp
        rcases List.mem_append.mp hp with hp | hp
        · have hqa := (wf_attr_facts d 0 hwf p hp).1
          intro hcon
          rw [hcon, startsWith_dollar_at] at hqa
          exact Bool.noConfusion hqa
        · have hpa := (wf_plain_facts d 0 hwf p hp).2.1
          intro hcon
          rw [hcon, startsWith_dollar_dollar] at hpa
          exact Bool.noConfusion hpa
      rw [hset]
      exact congrArg BV.dict h2


/-- Counterexample to C3 as stated: the mapping `{"a": ["x"]}` — a list of
one primitive, accepted by `setBulk` — is written as a single `a` child
with text `x`, and `getBulk` reads that back as the bare string `"x"`, not
the one-element list: the round trip is not the identity on every accepted
mapping. -/
theorem setBulk_getBulk_counterexample :
    (setBulk (enterSession witnessDb) [2]
        [("a", BV.list [BV.str "x"])]).2 = Outcome.completed ∧
    (getAt (setBulk (enterSession witnessDb) [2]
        [("a", BV.list [BV.str "x"])]).1.xmlTree [2]).map getBulkInternal =
      some (BV.dict [("a", BV.str "x")]) ∧
    BV.dict [("a", BV.str "x")] ≠
      BV.dict [("a", BV.list [BV.str "x"])] := by
  have hel : getAt witnessDb.xmlTree [2] = some witnessMaterialsEl := rfl
  have c1 : startsWithCh '@' "a" = false := by decide
  have c2 : startsWithCh '$' "a" = false := by decide
  have hsbOn : setBulkOn witnessMaterialsEl [("a", BV.list [BV.str "x"])] =
      (Element.mk "materials" [] [Element.mk "a" [] [] (some "x")] none,
        true) := by
    rw [setBulkOn]
    simp [setBulkInternal, emptyEl, withText, pyStr, c1, c2,
      witnessMaterialsEl, appendChild]
  have hread : getBulkInternal (Element.mk "materials" []
      [Element.mk "a" [] [] (some "x")] none) =
      BV.dict [("a", BV.str "x")] := by
    rw [getBulkInternal_mk]
    simp only [List.foldl_nil, getBulkChildren_cons, getBulkChildren_nil]
    rw [getBulkInternal_mk]
    simp [mergeChild, dictGet, dictSet, getBulkChildren_nil]
  refine ⟨?_, ?_, by simp⟩
  · simp [setBulk, hel, hsbOn, enterSession]
  · simp [setBulk, hel, hsbOn, enterSession, getAt_modifyAt, hread]

/-- C3 corrected: for a resolved element and a well-formed mapping
(`wfDict`: attribute entries first, then plain children, then at most one
final text entry; distinct keys; lists hold at least two items, all
strings or all well-formed dicts; no sole-text mapping), an in-session
`setBulk` succeeds and rebuilds the element so that reading it back with
the `getBulk` worker reproduces the mapping exactly.  Outside `wfDict` the
law can fail (see the one-element-list counterexample). -/
theorem setBulk_getBulk_amended (db : DB) (loc : List Nat) (el : Element)
    (d : List (String × BV)) (hctx : db.inContext = true)
    (hel : getAt db.xmlTree loc = some el) (hwf : wfDict d = true) :
    (setBulk db loc d).2 = Outcome.completed ∧
    (getAt (setBulk db loc d).1.xmlTree loc).map getBulkInternal =
      some (BV.dict d) := by
  rw [wfDict] at hwf
  simp only [Bool.and_eq_true] at hwf
  obtain ⟨⟨hwfe, hnd⟩, hg⟩ := hwf
  have hbuild := setBulkInternal_build (sizeOf d + 1) d (by omega) 0
    (emptyEl el.tag) hwfe hnd (by intro p hp hpa q hq; simp [emptyEl] at hq)
  have hsbOn : setBulkOn el d =
      (Element.mk el.tag (attrList d) (kidList d) (textOpt d), true) := by
    rw [setBulkOn, hbuild]
    simp [emptyEl, orElseOpt_none_right]
  have hgb := getBulk_build (sizeOf d + 1) d (by omega) hwfe hnd hg el.tag
  constructor
  · simp [setBulk, hctx, hel, hsbOn]
  · simp [setBulk, hctx, hel, hsbOn, getAt_modifyAt, hgb]

theorem setBulk_getBulk_amended_witness :
    ((enterSession witnessDb).inContext = true ∧
      (getAt (enterSession witnessDb).xmlTree [2]).isSome = true ∧
      wfDict [("@a", BV.str "1"), ("b", BV.str "x"),
        ("c", BV.dict [("d", BV.str "y")]),
        ("e", BV.list [BV.str "u", BV.str "v"]), ("$", BV.str "t")] = true) ∧
    ((setBulk (enterSession witnessDb) [2]
        [("@a", BV.str "1"), ("b", BV.str "x"),
         ("c", BV.dict [("d", BV.str "y")]),
         ("e", BV.list [BV.str "u", BV.str "v"]),
         ("$", BV.str "t")]).2 = Outcome.completed ∧
      (getAt (setBulk (enterSession witnessDb) [2]
        [("@a", BV.str "1"), ("b", BV.str "x"),
         ("c", BV.dict [("d", BV.str "y")]),
         ("e", BV.list [BV.str "u", BV.str "v"]),
         ("$", BV.str "t")]).1.xmlTree [2]).map getBulkInternal =
      some (BV.dict [("@a", BV.str "1"), ("b", BV.str "x"),
        ("c", BV.dict [("d", BV.str "y")]),
        ("e", BV.list [BV.str "u", BV.str "v"]), ("$", BV.str "t")])) := by
  have hwf : wfDict [("@a", BV.str "1"), ("b", BV.str "x"),
      ("c", BV.dict [("d", BV.str "y")]),
      ("e", BV.list [BV.str "u", BV.str "v"]), ("$", BV.str "t")] = true := by
    simp [wfDict, wfEntries, wfVal, wfItemsStr, isStrB, nodupKeys,
      dollarGuard, startsWithCh]
    decide
  refine ⟨⟨rfl, rfl, hwf⟩, ?_⟩
  exact setBulk_getBulk_amended (enterSession witnessDb) [2]
    witnessMaterialsEl _ rfl rfl hwf


end CoreDB
